import Mathlib

/-!
# boost/math/tools/polynomial.hpp: dense univariate polynomials

A shallow embedding of the header.  A `polynomial<T>` is its coefficient
vector `m_data`; element `i` multiplies `x^i`.  Functions that index a vector
or divide coefficients return `Except Fault`: an access outside the vector is
undefined behaviour in the source and the fault `Fault.out_of_range` here, a
division of the coefficient type by zero is `Fault.zero_divisor`, a `float`
that overflowed to infinity is `Fault.not_finite`, and the exception thrown
by `quotient_remainder` is `Fault.domain_error`.  Assertions
(`BOOST_ASSERT`) are compiled out.  `std::size_t` subtraction wraps on
underflow.  The argument of a member is an object other than its receiver,
except in `polynomial.mul_assign_self`, the call `a *= a`.  The definitions
come first, the theorems after them.
-/

namespace boost.math.tools

/-- What can go wrong while a function of the header runs. -/
inductive Fault where
  /-- The exception `std::domain_error("Divide by zero.")` of `quotient_remainder`. -/
  | domain_error
  /-- An element access outside the bounds of a vector (undefined behaviour). -/
  | out_of_range
  /-- The coefficient type was asked to divide by its additive identity. -/
  | zero_divisor
  /-- A `float` operation returned an infinity, which no element of the coefficient
  field represents. -/
  | not_finite
  deriving DecidableEq, Repr

/-- The class `polynomial<T>`: its only member is the vector `m_data`. -/
abbrev polynomial (T : Type) := List T

/-- The difference of two `std::size_t` values that are sizes of vectors (so below
`2^64`): it wraps around when the subtrahend is the larger one. -/
def size_t_sub (a b : Nat) : Nat :=
  if b ≤ a then a - b else a + 2 ^ 64 - b

/-- The sum of two `std::size_t` values. -/
def size_t_add (a b : Nat) : Nat :=
  (a + b) % 2 ^ 64

/-- Read `v[i]`. -/
def rd {T : Type} (v : List T) (i : Nat) : Except Fault T :=
  match v[i]? with
  | some x => .ok x
  | none => .error .out_of_range

/-- Write `v[i] = x`. -/
def wr {T : Type} (v : List T) (i : Nat) (x : T) : Except Fault (List T) :=
  if i < v.length then .ok (v.set i x) else .error .out_of_range

/-- Run `body lo`, `body (lo+1)`, ... `count` times, threading the state and
stopping at the first fault. -/
def iterate {σ : Type} (body : Nat → σ → Except Fault σ) : Nat → Nat → σ → Except Fault σ
  | 0, _, s => .ok s
  | count + 1, lo, s =>
    match body lo s with
    | .ok s' => iterate body count (lo + 1) s'
    | .error e => .error e

/-- The loop `for (std::size_t i = lo; i < hi; i++) body`, whose bound `hi` is fixed
before the loop starts. -/
def for_loop {σ : Type} (lo hi : Nat) (s : σ) (body : Nat → σ → Except Fault σ) :
    Except Fault σ :=
  iterate body (hi - lo) lo s

section container

variable {T : Type}

/-- The member `size()`. -/
def polynomial.size (p : polynomial T) : Nat := p.length

/-- The member `degree()`, which is `m_data.size() - 1` in `std::size_t`. -/
def polynomial.degree (p : polynomial T) : Nat := size_t_sub p.length 1

/-- The constructor `polynomial(const U& point)`. -/
def polynomial.of_point (point : T) : polynomial T := [point]

/-- The constructor `polynomial(I first, I last)` over a vector `v`, the iterators
being `v.begin() + first` and `v.begin() + last`. -/
def polynomial.of_range (v : List T) (first last : Nat) : Except Fault (polynomial T) :=
  if first ≤ last ∧ last ≤ v.length then .ok ((v.drop first).take (last - first))
  else .error .out_of_range

end container

section ring

variable {T : Type} [CommRing T]

/-- Modelled from the spec: `evaluate_polynomial(buffer, x, count)` of
`boost/math/tools/rational.hpp`, which is not part of the sources at hand; the
Horner evaluation of a coefficient buffer whose element `i` multiplies `x^i`. -/
def evaluate_polynomial (poly : List T) (z : T) : T :=
  poly.foldr (fun c sum => sum * z + c) 0

/-- The member `evaluate(z)`. -/
def polynomial.evaluate (p : polynomial T) (z : T) : T :=
  evaluate_polynomial p z

/-- The member `operator+=(const U& value)` for a scalar. -/
def polynomial.add_assign_scalar (m_data : polynomial T) (value : T) : polynomial T :=
  match m_data with
  | [] => [value]
  | c :: cs => (c + value) :: cs

/-- The member `operator-=(const U& value)` for a scalar. -/
def polynomial.sub_assign_scalar (m_data : polynomial T) (value : T) : polynomial T :=
  match m_data with
  | [] => [-value]
  | c :: cs => (c - value) :: cs

/-- The member `operator*=(const U& value)` for a scalar. -/
def polynomial.mul_assign_scalar (m_data : polynomial T) (value : T) : polynomial T :=
  m_data.map (fun c => c * value)

/-- The member `operator+=(const polynomial<U>& value)`. -/
def polynomial.add_assign (m_data value : polynomial T) : Except Fault (polynomial T) := do
  let s1 := min m_data.size value.size
  let m_data ← for_loop 0 s1 m_data fun i m_data => do
    let a ← rd m_data i
    let b ← rd value i
    wr m_data i (a + b)
  for_loop s1 value.size m_data fun i m_data => do
    let b ← rd value i
    pure (m_data ++ [b])

/-- The member `operator-=(const polynomial<U>& value)`. -/
def polynomial.sub_assign (m_data value : polynomial T) : Except Fault (polynomial T) := do
  let s1 := min m_data.size value.size
  let m_data ← for_loop 0 s1 m_data fun i m_data => do
    let a ← rd m_data i
    let b ← rd value i
    wr m_data i (a - b)
  for_loop s1 value.size m_data fun i m_data => do
    let b ← rd value i
    pure (m_data ++ [-b])

/-- The member `operator*=(const polynomial<U>& value)` for a multiplier `value` that
is an object other than the receiver, as in the free `operator*`, which multiplies a copy
of its first argument: the loops leave `value` untouched, so its size and elements are
those at the call. The call `a *= a`, where the reference `value` is the receiver itself,
is `polynomial.mul_assign_self`. The assertion on `value.size()` is compiled out;
`value[0]` is read all the same. -/
def polynomial.mul_assign (m_data value : polynomial T) : Except Fault (polynomial T) := do
  let base := m_data
  let v0 ← rd value 0
  let m_data := m_data.mul_assign_scalar v0
  for_loop 1 value.size m_data fun i m_data => do
    let vi ← rd value i
    let t := base.mul_assign_scalar vi
    let s := size_t_sub m_data.size i
    let m_data ← for_loop 0 s m_data fun j m_data => do
      let a ← rd m_data (i + j)
      let b ← rd t j
      wr m_data (i + j) (a + b)
    for_loop s t.size m_data fun j m_data => do
      let b ← rd t j
      pure (m_data ++ [b])

/-- The member `operator*=(const U& value)` for a scalar, called with a reference to the
receiver's own element `m_data[k]` as `value`: every step `m_data[i] *= value` reads the
element as it then stands. -/
def polynomial.mul_assign_scalar_at (m_data : polynomial T) (k : Nat) :
    Except Fault (polynomial T) :=
  for_loop 0 m_data.size m_data fun i m_data => do
    let value ← rd m_data k
    let c ← rd m_data i
    wr m_data i (c * value)

/-- One round of the outer loop of `operator*=(const polynomial<U>& value)` in the call
`a *= a`: `value[i]` is the receiver's element `m_data[i]` as the round finds it. -/
def polynomial.mul_assign_self_round (base : polynomial T) (i : Nat) (m_data : polynomial T) :
    Except Fault (polynomial T) := do
  let vi ← rd m_data i
  let t := base.mul_assign_scalar vi
  let s := size_t_sub m_data.size i
  let m_data ← for_loop 0 s m_data fun j m_data => do
    let a ← rd m_data (i + j)
    let b ← rd t j
    wr m_data (i + j) (a + b)
  for_loop s t.size m_data fun j m_data => do
    let b ← rd t j
    pure (m_data ++ [b])

/-- The outer loop `for (size_type i = 1; i < value.size(); ++i)` in the call `a *= a`:
`value.size()` is the receiver's size, read again before every round. `fuel` is the
number of rounds allowed; the result is `none` when a further round is due and no fuel
is left. Sizes are unbounded here. -/
def polynomial.mul_assign_self_loop (base : polynomial T) :
    Nat → Nat → polynomial T → Except Fault (Option (polynomial T))
  | fuel, i, m_data =>
    if i < m_data.size then
      match fuel with
      | 0 => .ok none
      | fuel + 1 =>
        match polynomial.mul_assign_self_round base i m_data with
        | .ok m_data => polynomial.mul_assign_self_loop base fuel (i + 1) m_data
        | .error e => .error e
    else .ok (some m_data)

/-- The member `operator*=(const polynomial<U>& value)` in the call `a *= a`, where
`value` refers to the receiver: `base` is a copy, `value[0]` and `value[i]` are elements
of `m_data` and `value.size()` is its size. -/
def polynomial.mul_assign_self (fuel : Nat) (m_data : polynomial T) :
    Except Fault (Option (polynomial T)) := do
  let base := m_data
  let _ ← rd m_data 0
  let m_data ← m_data.mul_assign_scalar_at 0
  polynomial.mul_assign_self_loop base fuel 1 m_data

/-- The free `operator+` on two polynomials. -/
def operator_add (a b : polynomial T) : Except Fault (polynomial T) :=
  polynomial.add_assign a b

/-- The free `operator-` on two polynomials. -/
def operator_sub (a b : polynomial T) : Except Fault (polynomial T) :=
  polynomial.sub_assign a b

/-- The free `operator*` on two polynomials. -/
def operator_mul (a b : polynomial T) : Except Fault (polynomial T) :=
  polynomial.mul_assign a b

/-- The free `operator-` on a polynomial and a scalar: a copy of the polynomial, then
`-=` with the scalar. -/
def operator_sub_poly_scalar (a : polynomial T) (b : T) : polynomial T :=
  polynomial.sub_assign_scalar a b

/-- The free `operator-` on a scalar and a polynomial: the polynomial constructed from
the scalar, then `-=` with the polynomial (of the two member templates `operator-=` the
one taking a `const polynomial<U>&` is the more specialised for this argument). -/
def operator_sub_scalar_poly (a : T) (b : polynomial T) : Except Fault (polynomial T) :=
  polynomial.sub_assign (polynomial.of_point a) b

end ring

section division

variable {T : Type} [Field T] [DecidableEq T]

/-- The division `a / b` of the coefficient type: a field divides by every element
but its additive identity. -/
def coefficient_div (a b : T) : Except Fault T :=
  if b = 0 then .error .zero_divisor else .ok (a / b)

/-- The function `unchecked_synthetic_division`; its two assertions are compiled
out. -/
def unchecked_synthetic_division (dividend divisor : polynomial T) :
    Except Fault (polynomial T × polynomial T) := do
  let intermediate_result : List T := dividend
  let normalizer ← rd divisor 0
  let bound := size_t_add (size_t_sub dividend.degree divisor.degree) 1
  let intermediate_result ← for_loop 0 bound intermediate_result fun i intermediate_result => do
    let x ← rd intermediate_result i
    if x ≠ 0 then
      let coefficient ← coefficient_div x normalizer
      let intermediate_result ← wr intermediate_result i coefficient
      for_loop 1 (size_t_add divisor.degree 1) intermediate_result fun j intermediate_result => do
        let dj ← rd divisor j
        let y ← rd intermediate_result (i + j)
        wr intermediate_result (i + j) (y + -dj * coefficient)
    else
      pure intermediate_result
  let m := bound
  let star_m ← rd intermediate_result m
  let l := m + (if star_m = 0 then 1 else divisor.degree)
  let quotient ← polynomial.of_range intermediate_result 0 m
  let remainder ← polynomial.of_range intermediate_result m l
  pure (quotient, remainder)

/-- The first block of `unchecked_synthetic_division` on its own: the working buffer
`intermediate_result` as the elimination loop leaves it, before it is split. -/
def working_buffer (dividend divisor : polynomial T) : Except Fault (List T) := do
  let intermediate_result : List T := dividend
  let normalizer ← rd divisor 0
  let bound := size_t_add (size_t_sub dividend.degree divisor.degree) 1
  for_loop 0 bound intermediate_result fun i intermediate_result => do
    let x ← rd intermediate_result i
    if x ≠ 0 then
      let coefficient ← coefficient_div x normalizer
      let intermediate_result ← wr intermediate_result i coefficient
      for_loop 1 (size_t_add divisor.degree 1) intermediate_result fun j intermediate_result => do
        let dj ← rd divisor j
        let y ← rd intermediate_result (i + j)
        wr intermediate_result (i + j) (y + -dj * coefficient)
    else
      pure intermediate_result

/-- The function `quotient_remainder`, with the function it delegates to on its last
line as a parameter. -/
def quotient_remainder_by
    (core : polynomial T → polynomial T → Except Fault (polynomial T × polynomial T))
    (dividend divisor : polynomial T) : Except Fault (polynomial T × polynomial T) := do
  let zero_constant ←
    if divisor.degree = 0 then do
      let d0 ← rd divisor 0
      pure (decide (d0 = 0))
    else pure false
  if zero_constant then
    throw Fault.domain_error
  else if dividend.degree < divisor.degree then
    pure (polynomial.of_point 0, dividend)
  else
    core dividend divisor

/-- The function `quotient_remainder`. -/
def quotient_remainder (dividend divisor : polynomial T) :
    Except Fault (polynomial T × polynomial T) :=
  quotient_remainder_by unchecked_synthetic_division dividend divisor

/-- The member `operator/=`. -/
def polynomial.div_assign (m_data value : polynomial T) : Except Fault (polynomial T) := do
  let qr ← quotient_remainder m_data value
  pure qr.1

/-- The member `operator%=`. -/
def polynomial.mod_assign (m_data value : polynomial T) : Except Fault (polynomial T) := do
  let qr ← quotient_remainder m_data value
  pure qr.2

/-- The free `operator/` on two polynomials. -/
def operator_div (a b : polynomial T) : Except Fault (polynomial T) :=
  polynomial.div_assign a b

/-- The free `operator%` on two polynomials. -/
def operator_mod (a b : polynomial T) : Except Fault (polynomial T) :=
  polynomial.mod_assign a b

/-- The left-hand side `(p/q)*q + (p%q)` of the division identity, computed with the
operators of the header. -/
def recombine (p q : polynomial T) : Except Fault (polynomial T) := do
  let quotient ← operator_div p q
  let remainder ← operator_mod p q
  let product ← operator_mul quotient q
  operator_add product remainder

end division

section chebyshev

variable {T : Type} [Field T] [DecidableEq T]

/-- Modelled from the spec: `binomial_coefficient<T>(n, k)` of
`boost/math/special_functions/binomial.hpp`, which is not part of the sources at
hand; the combinatorial coefficient as a value of type `T`. -/
def binomial_coefficient (n k : Nat) : T := (Nat.choose n k : T)

/-- The call `ldexp(1.0f, m)` for an `unsigned m` (below `2^32`). The exponent is
converted to `int`, so values from `2^31` on wrap to negative ones, and the result is a
single-precision `float`: the power `2^e` for `-149 <= e <= 127`, zero below that range
(underflow) and `+inf` above it, the fault `Fault.not_finite` here. -/
def ldexp_one (m : Nat) : Except Fault T :=
  let e : Int := if m < 2 ^ 31 then (m : Int) else (m : Int) - 2 ^ 32
  if 127 < e then .error .not_finite
  else if 0 ≤ e then .ok (2 ^ e.toNat)
  else if -149 ≤ e then .ok ((2 ^ (-e).toNat)⁻¹)
  else .ok 0

/-- The function `chebyshev_coefficient`.  Its `unsigned` arguments are natural
numbers here: no subtraction or division on them exceeds `n`. -/
def chebyshev_coefficient (n m : Nat) : Except Fault T :=
  if m > n then pure 0
  else if n &&& 1 ≠ m &&& 1 then pure 0
  else if n = 0 then pure 1
  else do
    let result ← coefficient_div (n : T) 2
    let r := n - m
    let r := r / 2
    let result := if r &&& 1 ≠ 0 then -result else result
    let result ← coefficient_div result ((n - r : Nat) : T)
    let result := result * binomial_coefficient (n - r) r
    let scale ← ldexp_one m
    let result := result * scale
    pure result

/-- Read `v[i]` at an index of the signed type `difference_type`. -/
def rd_at {α : Type} (v : List α) (i : Int) : Except Fault α :=
  if 0 ≤ i then rd v i.toNat else .error .out_of_range

/-- The loop `for (difference_type i = start; i > stop; i -= step) body` for a positive
`step`: it runs for `start`, `start - step`, ... while the index exceeds `stop`. -/
def for_down {σ : Type} (step : Nat) (start stop : Int) (s : σ)
    (body : Int → σ → Except Fault σ) : Except Fault σ :=
  iterate (fun t s => body (start - step * t) s) ((start - stop + step - 1) / step).toNat 0 s

/-- The body of the loop of `evaluate_chebyshev` at index `i`, on the accumulators
`(yk2, yk1, yk)`. -/
def clenshaw_step (a : List T) (x : T) (i : Int) (y : T × T × T) : Except Fault (T × T × T) := do
  let yk2 := y.2.1
  let yk1 := y.2.2
  let ai ← rd_at a i
  pure (yk2, yk1, 2 * x * yk1 - yk2 + ai)

/-- The function `evaluate_chebyshev` (Clenshaw's formula). -/
def evaluate_chebyshev (a : List T) (x : T) : Except Fault T := do
  let y ← for_down 1 ((a.length : Int) - 1) 0 ((0 : T), (0 : T), (0 : T)) (clenshaw_step a x)
  let yk1 := y.2.1
  let yk := y.2.2
  let a0 ← rd a 0
  let half ← coefficient_div a0 2
  pure (half + yk * x - yk1)

end chebyshev

section chebyshev_ring

variable {R : Type} [CommRing R] [Invertible (2 : R)]

/-- The body of the loop of `evaluate_chebyshev` at index `i`, for a coefficient type
that is a commutative ring. -/
def clenshaw_step_ring (a : List R) (x : R) (i : Int) (y : R × R × R) :
    Except Fault (R × R × R) := do
  let yk2 := y.2.1
  let yk1 := y.2.2
  let ai ← rd_at a i
  pure (yk2, yk1, 2 * x * yk1 - yk2 + ai)

/-- The function `evaluate_chebyshev` instantiated at a coefficient type that is a
commutative ring in which 2 is invertible: there `a[0] / 2` is the product of `a[0]` and
the inverse of 2, and no division can fail. -/
def evaluate_chebyshev_ring (a : List R) (x : R) : Except Fault R := do
  let y ← for_down 1 ((a.length : Int) - 1) 0 ((0 : R), (0 : R), (0 : R))
    (clenshaw_step_ring a x)
  let yk1 := y.2.1
  let yk := y.2.2
  let a0 ← rd a 0
  pure (a0 * ⅟2 + yk * x - yk1)

end chebyshev_ring

section chebyshev_polynomials

/-- The value at `x` of the Chebyshev polynomial of the first kind `T_n`, by the same
recurrence. -/
def chebyshev_T {T : Type} [CommRing T] (x : T) : Nat → T
  | 0 => 1
  | 1 => x
  | n + 2 => 2 * x * chebyshev_T x (n + 1) - chebyshev_T x n

end chebyshev_polynomials

/-! ## Loops and checked accesses -/

section loops

variable {σ : Type}

theorem iterate_inv (body : Nat → σ → Except Fault σ) (P : Nat → σ → Prop) :
    ∀ (n lo : Nat) (s : σ), P lo s →
      (∀ i s, lo ≤ i → i < lo + n → P i s → ∃ s', body i s = .ok s' ∧ P (i + 1) s') →
      ∃ s', iterate body n lo s = .ok s' ∧ P (lo + n) s'
  | 0, lo, s, h0, _ => ⟨s, rfl, by simpa using h0⟩
  | n + 1, lo, s, h0, hstep => by
    obtain ⟨s1, h1, hP1⟩ := hstep lo s le_rfl (by omega) h0
    obtain ⟨s2, h2, hP2⟩ := iterate_inv body P n (lo + 1) s1 hP1
      (fun i s hi hi' hP => hstep i s (by omega) (by omega) hP)
    refine ⟨s2, ?_, ?_⟩
    · simp [iterate, h1, h2]
    · have hlo : lo + (n + 1) = lo + 1 + n := by omega
      rw [hlo]
      exact hP2

theorem for_loop_inv (body : Nat → σ → Except Fault σ) (P : Nat → σ → Prop)
    (lo hi : Nat) (s : σ) (hle : lo ≤ hi) (h0 : P lo s)
    (hstep : ∀ i s, lo ≤ i → i < hi → P i s → ∃ s', body i s = .ok s' ∧ P (i + 1) s') :
    ∃ s', for_loop lo hi s body = .ok s' ∧ P hi s' := by
  obtain ⟨s', h, hP⟩ := iterate_inv body P (hi - lo) lo s h0
    (fun i s hi1 hi2 hP => hstep i s hi1 (by omega) hP)
  refine ⟨s', h, ?_⟩
  have : lo + (hi - lo) = hi := by omega
  rwa [this] at hP

end loops

section access

variable {T : Type} [Zero T]

set_option linter.unusedSectionVars false

theorem rd_of_lt (v : List T) (i : Nat) (h : i < v.length) : rd v i = .ok (v.getD i 0) := by
  simp [rd, List.getD_eq_getElem?_getD, List.getElem?_eq_getElem h]

theorem wr_of_lt (v : List T) (i : Nat) (x : T) (h : i < v.length) :
    wr v i x = .ok (v.set i x) := by
  simp [wr, h]

theorem getD_set_eq (v : List T) (i k : Nat) (x : T) (h : i < v.length) :
    (v.set i x).getD k 0 = if k = i then x else v.getD k 0 := by
  simp only [List.getD_eq_getElem?_getD, List.getElem?_set]
  by_cases hk : k = i
  · subst hk
    simp [h]
  · have : ¬ i = k := fun e => hk e.symm
    simp [hk, this]

theorem getD_of_le (v : List T) (k : Nat) (h : v.length ≤ k) : v.getD k 0 = 0 := by
  simp [List.getD_eq_getElem?_getD, List.getElem?_eq_none h]

theorem list_ext_getD (u v : List T) (hlen : u.length = v.length)
    (h : ∀ k, k < u.length → u.getD k 0 = v.getD k 0) : u = v := by
  apply List.ext_getElem hlen
  intro k h1 h2
  have := h k h1
  simpa [List.getD_eq_getElem?_getD, List.getElem?_eq_getElem h1,
    List.getElem?_eq_getElem h2] using this

end access

section elementwise

variable {T : Type} [Zero T]

/-- The loop `for (j = 0; j < n; ++j) m[off + j] = g(m[off + j], t[j])`. -/
theorem update_loop (g : T → T → T) (t : List T) (off n : Nat) (m0 : List T)
    (h1 : off + n ≤ m0.length) (h2 : n ≤ t.length) :
    ∃ m, for_loop 0 n m0 (fun j m => do
        let a ← rd m (off + j)
        let b ← rd t j
        wr m (off + j) (g a b)) = .ok m ∧
      m.length = m0.length ∧
      ∀ k, m.getD k 0 =
        if off ≤ k ∧ k < off + n then g (m0.getD k 0) (t.getD (k - off) 0) else m0.getD k 0 := by
  obtain ⟨m, hm, hlen, hval⟩ := for_loop_inv
    (fun j m => do
        let a ← rd m (off + j)
        let b ← rd t j
        wr m (off + j) (g a b))
    (fun j m => m.length = m0.length ∧ ∀ k, m.getD k 0 =
        if off ≤ k ∧ k < off + j then g (m0.getD k 0) (t.getD (k - off) 0) else m0.getD k 0)
    0 n m0 (Nat.zero_le _) ⟨rfl, fun k => by
      have h0 : ¬ (off ≤ k ∧ k < off + 0) := by omega
      rw [if_neg h0]⟩
    (by
      rintro j m - hj ⟨hlen, hval⟩
      have hoj : off + j < m.length := by omega
      refine ⟨m.set (off + j) (g (m.getD (off + j) 0) (t.getD j 0)), ?_, ?_, ?_⟩
      · simp [rd_of_lt m _ hoj, rd_of_lt t j (by omega), wr_of_lt m _ _ hoj, bind, Except.bind]
      · simp [hlen]
      · intro k
        rw [getD_set_eq _ _ _ _ hoj]
        by_cases hk : k = off + j
        · subst hk
          have h3 : off ≤ off + j ∧ off + j < off + (j + 1) := ⟨by omega, by omega⟩
          have h4 : ¬ (off ≤ off + j ∧ off + j < off + j) := by omega
          rw [if_pos rfl, if_pos h3, hval, if_neg h4]
          simp
        · rw [if_neg hk, hval]
          by_cases hin : off ≤ k ∧ k < off + j
          · have : off ≤ k ∧ k < off + (j + 1) := ⟨hin.1, by omega⟩
            rw [if_pos hin, if_pos this]
          · have : ¬ (off ≤ k ∧ k < off + (j + 1)) := by omega
            rw [if_neg hin, if_neg this])
  exact ⟨m, hm, hlen, hval⟩

/-- The loop `for (j = lo; j < t.size(); ++j) m.push_back(f(t[j]))`. -/
theorem push_iterate (f : T → T) (t : List T) :
    ∀ (n lo : Nat) (m0 : List T), lo + n ≤ t.length →
      iterate (fun j m => do
        let b ← rd t j
        pure (m ++ [f b])) n lo m0 = .ok (m0 ++ ((t.drop lo).take n).map f)
  | 0, lo, m0, _ => by simp [iterate]
  | n + 1, lo, m0, h => by
    have hlo : lo < t.length := by omega
    have ih := push_iterate f t n (lo + 1) (m0 ++ [f (t.getD lo 0)]) (by omega)
    have hd : t.drop lo = t.getD lo 0 :: t.drop (lo + 1) := by
      rw [List.drop_eq_getElem_cons hlo]
      simp [List.getD_eq_getElem?_getD, List.getElem?_eq_getElem hlo]
    simp only [iterate, rd_of_lt t lo hlo, bind, Except.bind, pure, Except.pure]
    simp only [bind, Except.bind, pure, Except.pure] at ih
    rw [ih, hd]
    simp

theorem push_loop (f : T → T) (t : List T) (lo : Nat) (m0 : List T) :
    for_loop lo t.length m0 (fun j m => do
        let b ← rd t j
        pure (m ++ [f b])) = .ok (m0 ++ (t.drop lo).map f) := by
  by_cases h : lo ≤ t.length
  · have := push_iterate f t (t.length - lo) lo m0 (by omega)
    rw [for_loop, this]
    congr 3
    apply List.take_of_length_le
    simp
  · have h0 : t.length - lo = 0 := by omega
    have h1 : t.drop lo = [] := List.drop_of_length_le (by omega)
    simp [for_loop, h0, h1, iterate]

end elementwise

section combine

variable {T : Type} [Zero T]

set_option linter.unusedSectionVars false

theorem getD_append_eq (u v : List T) (k : Nat) :
    (u ++ v).getD k 0 = if k < u.length then u.getD k 0 else v.getD (k - u.length) 0 := by
  simp only [List.getD_eq_getElem?_getD]
  by_cases h : k < u.length
  · simp [h, List.getElem?_append_left h]
  · simp [h, List.getElem?_append_right (Nat.le_of_not_lt h)]

theorem getD_drop_eq (t : List T) (s k : Nat) : (t.drop s).getD k 0 = t.getD (s + k) 0 := by
  simp [List.getD_eq_getElem?_getD, List.getElem?_drop]

theorem getD_map_eq (f : T → T) (hf : f 0 = 0) (t : List T) (k : Nat) :
    (t.map f).getD k 0 = f (t.getD k 0) := by
  simp only [List.getD_eq_getElem?_getD, List.getElem?_map]
  cases t[k]? <;> simp [hf]

/-- The two loops shared by `+=`, `-=` and `*=`: combine `t` into `m0` from index `off`
on, then append what is left of `t`. -/
theorem shift_combine (g : T → T → T) (f : T → T) (hg : ∀ a, g a 0 = a)
    (hf : ∀ b, g 0 b = f b) (t m0 : List T) (off s : Nat)
    (h1 : off + s ≤ m0.length) (h2 : s ≤ t.length)
    (h3 : s = t.length ∨ off + s = m0.length) :
    ∃ r, (for_loop 0 s m0 (fun j m => do
          let a ← rd m (off + j)
          let b ← rd t j
          wr m (off + j) (g a b)) >>= fun m =>
        for_loop s t.length m (fun j m => do
          let b ← rd t j
          pure (m ++ [f b]))) = .ok r ∧
      r.length = m0.length + (t.length - s) ∧
      ∀ k, r.getD k 0 =
        if off ≤ k then g (m0.getD k 0) (t.getD (k - off) 0) else m0.getD k 0 := by
  obtain ⟨m, hm, hlen, hval⟩ := update_loop g t off s m0 h1 h2
  have hf0 : f 0 = 0 := by rw [← hf, hg]
  refine ⟨m ++ (t.drop s).map f, ?_, ?_, ?_⟩
  · rw [hm]
    exact push_loop f t s m
  · simp [hlen]
  · intro k
    rw [getD_append_eq, hlen]
    by_cases hk : k < m0.length
    · rw [if_pos hk, hval]
      by_cases hin : off ≤ k ∧ k < off + s
      · rw [if_pos hin, if_pos hin.1]
      · rw [if_neg hin]
        by_cases hoff : off ≤ k
        · rw [if_pos hoff]
          have hs : s = t.length := by omega
          rw [getD_of_le t (k - off) (by omega), hg]
        · rw [if_neg hoff]
    · rw [if_neg hk, getD_map_eq f hf0, getD_drop_eq]
      have hoff : off ≤ k := by omega
      rw [if_pos hoff, getD_of_le m0 k (by omega), hf]
      rcases h3 with h3 | h3
      · rw [getD_of_le t _ (by omega), getD_of_le t _ (by omega)]
      · have : s + (k - m0.length) = k - off := by omega
        rw [this]

end combine

section ring_facts

variable {T : Type} [CommRing T]

/-- What `operator+=` returns: it never faults, and coefficient `k` of the result is
the sum of the coefficients `k` of the operands, an absent one counting as zero. -/
theorem add_assign_spec (a b : polynomial T) :
    ∃ r, polynomial.add_assign a b = .ok r ∧ r.length = max a.length b.length ∧
      ∀ k, r.getD k 0 = a.getD k 0 + b.getD k 0 := by
  have hmin : min a.length b.length = b.length ∨ 0 + min a.length b.length = a.length := by
    rcases Nat.le_total a.length b.length with h | h
    · right; simp [h]
    · left; simp [h]
  obtain ⟨r, hr, hlen, hval⟩ := shift_combine (fun x y : T => x + y) id (by simp) (by simp)
    b a 0 (min a.length b.length) (by simp) (by simp) hmin
  refine ⟨r, ?_, ?_, ?_⟩
  · simp only [Nat.zero_add] at hr
    exact hr
  · rw [hlen]; omega
  · intro k
    simpa using hval k

end ring_facts

section mul_facts

variable {T : Type} [CommRing T]

theorem size_t_sub_of_le (a b : Nat) (h : b ≤ a) : size_t_sub a b = a - b := by
  simp [size_t_sub, h]

theorem length_mul_assign_scalar (a : polynomial T) (v : T) :
    (polynomial.mul_assign_scalar a v).length = a.length := by
  simp [polynomial.mul_assign_scalar]

theorem getD_mul_assign_scalar (a : polynomial T) (v : T) (k : Nat) :
    (polynomial.mul_assign_scalar a v).getD k 0 = a.getD k 0 * v := by
  rw [polynomial.mul_assign_scalar, getD_map_eq (fun c : T => c * v) (by simp)]

/-- What `operator*=` returns for a non-empty receiver and a non-empty multiplier. -/
theorem mul_assign_spec (a b : polynomial T) (ha : a ≠ []) (hb : b ≠ []) :
    ∃ r, polynomial.mul_assign a b = .ok r ∧ r.length = a.length + b.length - 1 ∧
      ∀ k, r.getD k 0 =
        ∑ j ∈ Finset.range b.length, if j ≤ k then a.getD (k - j) 0 * b.getD j 0 else 0 := by
  have hapos : 0 < a.length := List.length_pos.mpr ha
  have hbpos : 0 < b.length := List.length_pos.mpr hb
  obtain ⟨r, hr, hlen, hval⟩ := for_loop_inv
    (fun i m_data => do
      let vi ← rd b i
      let t := polynomial.mul_assign_scalar a vi
      let s := size_t_sub (polynomial.size m_data) i
      let m_data ← for_loop 0 s m_data fun j m_data => do
        let x ← rd m_data (i + j)
        let y ← rd t j
        wr m_data (i + j) (x + y)
      for_loop s (polynomial.size t) m_data fun j m_data => do
        let y ← rd t j
        pure (m_data ++ [y]))
    (fun i m => m.length = a.length + i - 1 ∧ ∀ k, m.getD k 0 =
        ∑ j ∈ Finset.range i, if j ≤ k then a.getD (k - j) 0 * b.getD j 0 else 0)
    1 b.length (polynomial.mul_assign_scalar a (b.getD 0 0)) hbpos
    ⟨by simp [length_mul_assign_scalar], fun k => by
      simp [-List.getD_eq_getElem?_getD, getD_mul_assign_scalar]⟩
    (by
      rintro i m hi1 hi2 ⟨hlen, hval⟩
      have hs : size_t_sub m.length i = a.length - 1 := by
        rw [size_t_sub_of_le _ _ (by omega)]
        omega
      obtain ⟨r, hr, hrlen, hrval⟩ := shift_combine (fun x y : T => x + y) id (by simp)
        (by simp) (polynomial.mul_assign_scalar a (b.getD i 0)) m i (a.length - 1)
        (by omega) (by simp [length_mul_assign_scalar])
        (Or.inr (by omega))
      refine ⟨r, ?_, ?_, ?_⟩
      · simp only [rd_of_lt b i hi2, bind, Except.bind, hs, polynomial.size]
        simp only [bind, Except.bind, id] at hr
        exact hr
      · rw [hrlen, hlen, length_mul_assign_scalar]
        omega
      · intro k
        rw [hrval, Finset.sum_range_succ, hval]
        by_cases hk : i ≤ k
        · simp [-List.getD_eq_getElem?_getD, hk, getD_mul_assign_scalar]
        · simp [hk])
  refine ⟨r, ?_, hlen, hval⟩
  simp only [polynomial.mul_assign, rd_of_lt b 0 hbpos, bind, Except.bind, polynomial.size]
  simp only [bind, Except.bind, polynomial.size] at hr
  exact hr

end mul_facts

section algebra

variable {T : Type} [CommRing T]

/-- The coefficients of the formal polynomial that a coefficient vector stands for. -/
theorem coeff_foldr (l : List T) :
    ∀ k, (l.foldr (fun c P => Polynomial.C c + Polynomial.X * P) 0).coeff k = l.getD k 0 := by
  induction l with
  | nil => intro k; simp
  | cons c cs ih =>
    intro k
    cases k with
    | zero => simp
    | succ k => simp [-List.getD_eq_getElem?_getD, ih k]

/-- The value of that formal polynomial at a point is what `evaluate` returns. -/
theorem eval_foldr (l : List T) (x : T) :
    (l.foldr (fun c P => Polynomial.C c + Polynomial.X * P) 0).eval x =
      polynomial.evaluate l x := by
  induction l with
  | nil => simp [polynomial.evaluate, evaluate_polynomial]
  | cons c cs ih =>
    simp only [polynomial.evaluate, evaluate_polynomial, List.foldr_cons] at ih ⊢
    simp only [Polynomial.eval_add, Polynomial.eval_mul, Polynomial.eval_C, Polynomial.eval_X, ih]
    ring

theorem foldr_injective (u v : List T) (hlen : u.length = v.length)
    (h : u.foldr (fun c P => Polynomial.C c + Polynomial.X * P) 0 =
      v.foldr (fun c P => Polynomial.C c + Polynomial.X * P) 0) : u = v := by
  apply list_ext_getD u v hlen
  intro k _
  rw [← coeff_foldr u k, ← coeff_foldr v k, h]

/-- Coefficient `k` of a product is the sum over the antidiagonal `i + j = k`. -/
theorem mul_assign_antidiagonal (a b r : polynomial T) (ha : a ≠ []) (hb : b ≠ [])
    (hr : polynomial.mul_assign a b = .ok r) (k : Nat) :
    r.getD k 0 = ∑ p ∈ Finset.antidiagonal k, a.getD p.1 0 * b.getD p.2 0 := by
  obtain ⟨r', hr', -, hval⟩ := mul_assign_spec a b ha hb
  rw [hr] at hr'
  cases hr'
  rw [hval]
  have h1 : ∑ j ∈ Finset.range b.length,
        (if j ≤ k then a.getD (k - j) 0 * b.getD j 0 else 0) =
      ∑ j ∈ Finset.range (max b.length (k + 1)),
        (if j ≤ k then a.getD (k - j) 0 * b.getD j 0 else 0) := by
    apply Finset.sum_subset
    · intro j hj
      simp only [Finset.mem_range] at hj ⊢
      omega
    · intro j _ hj
      simp only [Finset.mem_range, not_lt] at hj
      rw [getD_of_le b j hj]
      simp
  have h2 : ∑ j ∈ Finset.range (k + 1),
        (if j ≤ k then a.getD (k - j) 0 * b.getD j 0 else 0) =
      ∑ j ∈ Finset.range (max b.length (k + 1)),
        (if j ≤ k then a.getD (k - j) 0 * b.getD j 0 else 0) := by
    apply Finset.sum_subset
    · intro j hj
      simp only [Finset.mem_range] at hj ⊢
      omega
    · intro j _ hj
      simp only [Finset.mem_range, not_lt] at hj
      have : ¬ j ≤ k := by omega
      rw [if_neg this]
  have h3 : ∑ j ∈ Finset.range (k + 1),
        (if j ≤ k then a.getD (k - j) 0 * b.getD j 0 else 0) =
      ∑ j ∈ Finset.range (k + 1),
        (fun i => a.getD i 0 * b.getD (k - i) 0) (k + 1 - 1 - j) := by
    apply Finset.sum_congr rfl
    intro j hj
    simp only [Finset.mem_range] at hj
    have hjk : j ≤ k := by omega
    have e1 : k + 1 - 1 - j = k - j := by omega
    have e2 : k - (k - j) = j := by omega
    simp only [if_pos hjk, e1, e2]
  rw [h1, ← h2, h3,
    Finset.sum_range_reflect (fun i => a.getD i 0 * b.getD (k - i) 0) (k + 1),
    Finset.Nat.sum_antidiagonal_eq_sum_range_succ (fun i j => a.getD i 0 * b.getD j 0)]

theorem mul_assign_foldr (a b r : polynomial T) (ha : a ≠ []) (hb : b ≠ [])
    (hr : polynomial.mul_assign a b = .ok r) :
    r.foldr (fun c P => Polynomial.C c + Polynomial.X * P) 0 =
      a.foldr (fun c P => Polynomial.C c + Polynomial.X * P) 0 *
        b.foldr (fun c P => Polynomial.C c + Polynomial.X * P) 0 := by
  ext k
  rw [coeff_foldr, Polynomial.coeff_mul, mul_assign_antidiagonal a b r ha hb hr k]
  apply Finset.sum_congr rfl
  intro p _
  rw [coeff_foldr, coeff_foldr]

theorem add_assign_foldr (a b r : polynomial T) (hr : polynomial.add_assign a b = .ok r) :
    r.foldr (fun c P => Polynomial.C c + Polynomial.X * P) 0 =
      a.foldr (fun c P => Polynomial.C c + Polynomial.X * P) 0 +
        b.foldr (fun c P => Polynomial.C c + Polynomial.X * P) 0 := by
  obtain ⟨r', hr', -, hval⟩ := add_assign_spec a b
  rw [hr] at hr'
  cases hr'
  ext k
  rw [Polynomial.coeff_add, coeff_foldr, coeff_foldr, coeff_foldr, hval]

end algebra

/-! ## Multiplication and addition -/

section products

variable {T : Type} [CommRing T]

/-- The convolution: for a non-empty receiver `a` and a non-empty multiplier `b` held in
an object other than the receiver, `operator*=`
returns a vector of exactly `size(a) + size(b) - 1` coefficients whose coefficient at
index `k` is the sum of `a[i] * b[j]` over all `i < size(a)`, `j < size(b)` with
`i + j = k`; and `[1,2,3] * [1,1] = [1,3,5,3]`. -/
theorem mul_assign_is_convolution (a b : polynomial T) (ha : a ≠ []) (hb : b ≠ []) :
    (∃ r, polynomial.mul_assign a b = .ok r ∧ r.length = a.size + b.size - 1 ∧
      ∀ k, k < r.length → r[k]? = some
        (∑ p ∈ (Finset.range a.size ×ˢ Finset.range b.size).filter (fun p => p.1 + p.2 = k),
          a.getD p.1 0 * b.getD p.2 0)) ∧
    polynomial.mul_assign ([1, 2, 3] : polynomial ℤ) [1, 1] = .ok [1, 3, 5, 3] := by
  constructor
  · obtain ⟨r, hr, hlen, -⟩ := mul_assign_spec a b ha hb
    refine ⟨r, hr, hlen, ?_⟩
    intro k hk
    have hget : r[k]? = some (r.getD k 0) := by
      simp [List.getD_eq_getElem?_getD, List.getElem?_eq_getElem hk]
    rw [hget, mul_assign_antidiagonal a b r ha hb hr k]
    congr 1
    symm
    apply Finset.sum_subset
    · intro p hp
      simp only [Finset.mem_filter] at hp
      simp [hp.2]
    · intro p hp hnot
      simp only [Finset.mem_antidiagonal] at hp
      simp only [Finset.mem_filter, Finset.mem_product, Finset.mem_range, polynomial.size,
        not_and] at hnot
      by_cases h1 : p.1 < a.length
      · by_cases h2 : p.2 < b.length
        · exact absurd hp (hnot ⟨h1, h2⟩)
        · rw [getD_of_le b p.2 (by omega)]
          simp
      · rw [getD_of_le a p.1 (by omega)]
        simp
  · simp [polynomial.mul_assign, polynomial.mul_assign_scalar, polynomial.size, for_loop,
      iterate, rd, wr, size_t_sub, bind, Except.bind, pure, Except.pure]

/-- C6: for non-empty `p`, `q` and every point `x`, the product `p * q` is returned and
`evaluate(p*q, x) = evaluate(p, x) * evaluate(q, x)`. -/
theorem evaluate_operator_mul (p q : polynomial T) (hp : p ≠ []) (hq : q ≠ []) (x : T) :
    ∃ r, operator_mul p q = .ok r ∧
      polynomial.evaluate r x = polynomial.evaluate p x * polynomial.evaluate q x := by
  obtain ⟨r, hr, -, -⟩ := mul_assign_spec p q hp hq
  refine ⟨r, hr, ?_⟩
  rw [← eval_foldr, ← eval_foldr, ← eval_foldr, mul_assign_foldr p q r hp hq hr,
    Polynomial.eval_mul]

/-- C7: for non-empty `p`, `q` of any sizes and every point `x`, the sum `p + q` is
returned and `evaluate(p+q, x) = evaluate(p, x) + evaluate(q, x)`. -/
theorem evaluate_operator_add (p q : polynomial T) (_hp : p ≠ []) (_hq : q ≠ []) (x : T) :
    ∃ r, operator_add p q = .ok r ∧
      polynomial.evaluate r x = polynomial.evaluate p x + polynomial.evaluate q x := by
  obtain ⟨r, hr, -, -⟩ := add_assign_spec p q
  refine ⟨r, hr, ?_⟩
  rw [← eval_foldr, ← eval_foldr, ← eval_foldr, add_assign_foldr p q r hr,
    Polynomial.eval_add]

/-- C9: for non-empty `p`, `q`, both `p * q` and `q * p` are returned and they are the
same coefficient vector. -/
theorem operator_mul_comm (p q : polynomial T) (hp : p ≠ []) (hq : q ≠ []) :
    ∃ r, operator_mul p q = .ok r ∧ operator_mul q p = .ok r := by
  obtain ⟨r, hr, hlen, -⟩ := mul_assign_spec p q hp hq
  obtain ⟨r', hr', hlen', -⟩ := mul_assign_spec q p hq hp
  have : r' = r := by
    apply foldr_injective
    · omega
    · rw [mul_assign_foldr q p r' hq hp hr', mul_assign_foldr p q r hp hq hr, mul_comm]
  subst this
  exact ⟨r', hr, hr'⟩

/-- C10: for non-empty `p`, `q`, `r`, both `(p * q) * r` and `p * (q * r)` are returned
and they are the same coefficient vector. -/
theorem operator_mul_assoc (p q r : polynomial T) (hp : p ≠ []) (hq : q ≠ []) (hr : r ≠ []) :
    ∃ x, (operator_mul p q >>= fun pq => operator_mul pq r) = .ok x ∧
      (operator_mul q r >>= fun qr => operator_mul p qr) = .ok x := by
  have hppos : 0 < p.length := List.length_pos.mpr hp
  have hqpos : 0 < q.length := List.length_pos.mpr hq
  have hrpos : 0 < r.length := List.length_pos.mpr hr
  obtain ⟨pq, hpq, hpqlen, -⟩ := mul_assign_spec p q hp hq
  obtain ⟨qr, hqr, hqrlen, -⟩ := mul_assign_spec q r hq hr
  have hpqne : pq ≠ [] := List.length_pos.mp (by omega)
  have hqrne : qr ≠ [] := List.length_pos.mp (by omega)
  obtain ⟨x, hx, hxlen, -⟩ := mul_assign_spec pq r hpqne hr
  obtain ⟨y, hy, hylen, -⟩ := mul_assign_spec p qr hp hqrne
  have : y = x := by
    apply foldr_injective
    · omega
    · rw [mul_assign_foldr p qr y hp hqrne hy, mul_assign_foldr q r qr hq hr hqr,
        mul_assign_foldr pq r x hpqne hr hx, mul_assign_foldr p q pq hp hq hpq, mul_assoc]
  subst this
  refine ⟨y, ?_, ?_⟩
  · simp only [operator_mul, hpq, bind, Except.bind]
    exact hx
  · simp only [operator_mul, hqr, bind, Except.bind]
    exact hy

end products

section products_witnesses

/-- The convolution theorem at `a = [1,2,3]`, `b = [1,1]` over the integers. -/
theorem mul_assign_is_convolution_witness :
    (([1, 2, 3] : polynomial ℤ) ≠ [] ∧ ([1, 1] : polynomial ℤ) ≠ []) ∧
    ((∃ r, polynomial.mul_assign ([1, 2, 3] : polynomial ℤ) [1, 1] = .ok r ∧
      r.length = polynomial.size ([1, 2, 3] : polynomial ℤ) +
        polynomial.size ([1, 1] : polynomial ℤ) - 1 ∧
      ∀ k, k < r.length → r[k]? = some
        (∑ p ∈ (Finset.range (polynomial.size ([1, 2, 3] : polynomial ℤ)) ×ˢ
            Finset.range (polynomial.size ([1, 1] : polynomial ℤ))).filter
              (fun p => p.1 + p.2 = k),
          ([1, 2, 3] : polynomial ℤ).getD p.1 0 * ([1, 1] : polynomial ℤ).getD p.2 0)) ∧
    polynomial.mul_assign ([1, 2, 3] : polynomial ℤ) [1, 1] = .ok [1, 3, 5, 3]) :=
  ⟨⟨by simp, by simp⟩, mul_assign_is_convolution [1, 2, 3] [1, 1] (by simp) (by simp)⟩

/-- The product rule of evaluation at `p = [1,2,3]`, `q = [1,1]`, `x = 2`. -/
theorem evaluate_operator_mul_witness :
    (([1, 2, 3] : polynomial ℤ) ≠ [] ∧ ([1, 1] : polynomial ℤ) ≠ []) ∧
    ∃ r, operator_mul ([1, 2, 3] : polynomial ℤ) [1, 1] = .ok r ∧
      polynomial.evaluate r 2 =
        polynomial.evaluate ([1, 2, 3] : polynomial ℤ) 2 * polynomial.evaluate [1, 1] 2 :=
  ⟨⟨by simp, by simp⟩, evaluate_operator_mul [1, 2, 3] [1, 1] (by simp) (by simp) 2⟩

/-- The sum rule of evaluation at `p = [1,2,3]`, `q = [1,1]`, `x = 2`. -/
theorem evaluate_operator_add_witness :
    (([1, 2, 3] : polynomial ℤ) ≠ [] ∧ ([1, 1] : polynomial ℤ) ≠ []) ∧
    ∃ r, operator_add ([1, 2, 3] : polynomial ℤ) [1, 1] = .ok r ∧
      polynomial.evaluate r 2 =
        polynomial.evaluate ([1, 2, 3] : polynomial ℤ) 2 + polynomial.evaluate [1, 1] 2 :=
  ⟨⟨by simp, by simp⟩, evaluate_operator_add [1, 2, 3] [1, 1] (by simp) (by simp) 2⟩

/-- Commutativity at `p = [1,2,3]`, `q = [1,1]`. -/
theorem operator_mul_comm_witness :
    (([1, 2, 3] : polynomial ℤ) ≠ [] ∧ ([1, 1] : polynomial ℤ) ≠ []) ∧
    ∃ r, operator_mul ([1, 2, 3] : polynomial ℤ) [1, 1] = .ok r ∧
      operator_mul ([1, 1] : polynomial ℤ) [1, 2, 3] = .ok r :=
  ⟨⟨by simp, by simp⟩, operator_mul_comm [1, 2, 3] [1, 1] (by simp) (by simp)⟩

/-- Associativity at `p = [1,2,3]`, `q = [1,1]`, `r = [2,0,1]`. -/
theorem operator_mul_assoc_witness :
    (([1, 2, 3] : polynomial ℤ) ≠ [] ∧ ([1, 1] : polynomial ℤ) ≠ [] ∧
      ([2, 0, 1] : polynomial ℤ) ≠ []) ∧
    ∃ x, (operator_mul ([1, 2, 3] : polynomial ℤ) [1, 1] >>= fun pq =>
        operator_mul pq [2, 0, 1]) = .ok x ∧
      (operator_mul ([1, 1] : polynomial ℤ) [2, 0, 1] >>= fun qr =>
        operator_mul [1, 2, 3] qr) = .ok x :=
  ⟨⟨by simp, by simp, by simp⟩,
    operator_mul_assoc [1, 2, 3] [1, 1] [2, 0, 1] (by simp) (by simp) (by simp)⟩

end products_witnesses

/-! ## Division -/

section division_facts

variable {T : Type} [Field T] [DecidableEq T]

omit [Field T] [DecidableEq T] in
theorem degree_cons (c : T) (cs : List T) : polynomial.degree (c :: cs) = cs.length := by
  simp [polynomial.degree, size_t_sub]

/-- C5: for non-empty `p`, `q` with `degree(p) < degree(q)`, `quotient_remainder(p, q)`
returns the degree-0 polynomial `[0]` and `p` itself, whatever the function it would
delegate to: the synthetic division is not run. -/
theorem quotient_remainder_short_dividend
    (core : polynomial T → polynomial T → Except Fault (polynomial T × polynomial T))
    (p q : polynomial T) (hp : p ≠ []) (hq : q ≠ []) (h : p.degree < q.degree) :
    quotient_remainder_by core p q = .ok ([0], p) ∧ quotient_remainder p q = .ok ([0], p) := by
  obtain ⟨a, as, rfl⟩ := List.exists_cons_of_ne_nil hp
  obtain ⟨b, bs, rfl⟩ := List.exists_cons_of_ne_nil hq
  have key : ∀ core' : polynomial T → polynomial T → Except Fault (polynomial T × polynomial T),
      quotient_remainder_by core' (a :: as) (b :: bs) = .ok ([0], a :: as) := by
    intro core'
    rw [degree_cons, degree_cons] at h
    have hne : bs.length ≠ 0 := by omega
    simp [quotient_remainder_by, degree_cons, hne, h, polynomial.of_point, bind, Except.bind,
      pure, Except.pure]
  exact ⟨key core, key _⟩

/-- The short-dividend rule at `p = [5]`, `q = [1,2]`, with a delegate that always
faults. -/
theorem quotient_remainder_short_dividend_witness :
    (([5] : polynomial ℚ) ≠ [] ∧ ([1, 2] : polynomial ℚ) ≠ [] ∧
      polynomial.degree ([5] : polynomial ℚ) < polynomial.degree ([1, 2] : polynomial ℚ)) ∧
    (quotient_remainder_by (fun _ _ => .error Fault.out_of_range) ([5] : polynomial ℚ) [1, 2] =
        .ok ([0], [5]) ∧
      quotient_remainder ([5] : polynomial ℚ) [1, 2] = .ok ([0], [5])) :=
  ⟨⟨by simp, by simp, by simp [polynomial.degree, size_t_sub]⟩,
    quotient_remainder_short_dividend (fun _ _ => .error Fault.out_of_range) [5] [1, 2]
      (by simp) (by simp) (by simp [polynomial.degree, size_t_sub])⟩

/-- C3: for `p = [1,2,3]` and `q = [1,1]` the code returns the quotient `[1,1]` and the
remainder `[2]`, not the quotient `[-1,3]`. -/
theorem quotient_remainder_scenario :
    quotient_remainder ([1, 2, 3] : polynomial ℚ) [1, 1] = .ok ([1, 1], [2]) ∧
    quotient_remainder ([1, 2, 3] : polynomial ℚ) [1, 1] ≠ .ok ([-1, 3], [2]) := by
  have h : quotient_remainder ([1, 2, 3] : polynomial ℚ) [1, 1] = .ok ([1, 1], [2]) := by
    norm_num [quotient_remainder, quotient_remainder_by, unchecked_synthetic_division,
      polynomial.degree, size_t_sub, size_t_add, rd, wr, for_loop, iterate, coefficient_div,
      polynomial.of_range, polynomial.of_point, bind, Except.bind, pure, Except.pure]
  refine ⟨h, ?_⟩
  rw [h]
  norm_num

/-- C1: for `p = [1,2,3]` and `q = [1,1]` the code computes `(p/q)*q + (p%q)` as
`[3,2,1]`, which is not `p`. -/
theorem recombine_scenario :
    recombine ([1, 2, 3] : polynomial ℚ) [1, 1] = .ok [3, 2, 1] ∧
    recombine ([1, 2, 3] : polynomial ℚ) [1, 1] ≠ .ok [1, 2, 3] := by
  have h : recombine ([1, 2, 3] : polynomial ℚ) [1, 1] = .ok [3, 2, 1] := by
    norm_num [recombine, operator_div, operator_mod, operator_mul, operator_add,
      polynomial.div_assign, polynomial.mod_assign, polynomial.mul_assign,
      polynomial.add_assign, polynomial.mul_assign_scalar, polynomial.size,
      quotient_remainder, quotient_remainder_by, unchecked_synthetic_division,
      polynomial.degree, size_t_sub, size_t_add, rd, wr, for_loop, iterate, coefficient_div,
      polynomial.of_range, polynomial.of_point, bind, Except.bind, pure, Except.pure]
  refine ⟨h, ?_⟩
  rw [h]
  norm_num

/-- C4: for the dividend `[1]` and the non-zero constant divisor `[2]` the code reads
the working buffer one element past its end instead of returning a pair. -/
theorem quotient_remainder_constant_divisor :
    quotient_remainder ([1] : polynomial ℚ) [2] = .error Fault.out_of_range := by
  norm_num [quotient_remainder, quotient_remainder_by, unchecked_synthetic_division,
    polynomial.degree, size_t_sub, size_t_add, rd, wr, for_loop, iterate, coefficient_div,
    polynomial.of_range, polynomial.of_point, bind, Except.bind, pure, Except.pure]

end division_facts


section raised_error

variable {α β σ : Type}

theorem iterate_ne_error (e : Fault) (body : Nat → σ → Except Fault σ)
    (h : ∀ i s, body i s ≠ .error e) : ∀ n lo s, iterate body n lo s ≠ .error e
  | 0, lo, s => by simp [iterate]
  | n + 1, lo, s => by
    rw [iterate]
    cases hb : body lo s with
    | ok s' => exact iterate_ne_error e body h n (lo + 1) s'
    | error e' =>
      intro hc
      apply h lo s
      rw [hb]
      exact hc

theorem bind_ne_error (e : Fault) (r : Except Fault α) (f : α → Except Fault β)
    (hr : r ≠ .error e) (hf : ∀ a, f a ≠ .error e) : (r >>= f) ≠ .error e := by
  cases r with
  | ok a => exact hf a
  | error e' =>
    intro hc
    have he : e' = e := by simpa [bind, Except.bind] using hc
    exact hr (by rw [he])

theorem rd_ne_domain_error (v : List α) (i : Nat) : rd v i ≠ .error .domain_error := by
  unfold rd
  split <;> simp

theorem wr_ne_domain_error (v : List α) (i : Nat) (x : α) :
    wr v i x ≠ .error .domain_error := by
  unfold wr
  split <;> simp

theorem of_range_ne_domain_error (v : List α) (first last : Nat) :
    polynomial.of_range v first last ≠ .error .domain_error := by
  unfold polynomial.of_range
  split <;> simp

variable {T : Type} [Field T] [DecidableEq T]

theorem coefficient_div_ne_domain_error (a b : T) :
    coefficient_div a b ≠ .error .domain_error := by
  unfold coefficient_div
  split <;> simp

/-- The synthetic division itself never raises `std::domain_error`. -/
theorem unchecked_synthetic_division_ne_domain_error (dividend divisor : polynomial T) :
    unchecked_synthetic_division dividend divisor ≠ .error .domain_error := by
  unfold unchecked_synthetic_division
  refine bind_ne_error _ _ _ (rd_ne_domain_error _ _) (fun normalizer => ?_)
  refine bind_ne_error _ _ _ ?_ (fun w => ?_)
  · refine iterate_ne_error _ _ (fun i w => ?_) _ _ _
    refine bind_ne_error _ _ _ (rd_ne_domain_error _ _) (fun x => ?_)
    split
    · refine bind_ne_error _ _ _ (coefficient_div_ne_domain_error _ _) (fun c => ?_)
      refine bind_ne_error _ _ _ (wr_ne_domain_error _ _ _) (fun w' => ?_)
      refine iterate_ne_error _ _ (fun j w'' => ?_) _ _ _
      refine bind_ne_error _ _ _ (rd_ne_domain_error _ _) (fun dj => ?_)
      exact bind_ne_error _ _ _ (rd_ne_domain_error _ _) (fun y => wr_ne_domain_error _ _ _)
    · simp [pure, Except.pure]
  · refine bind_ne_error _ _ _ (rd_ne_domain_error _ _) (fun star_m => ?_)
    refine bind_ne_error _ _ _ (of_range_ne_domain_error _ _ _) (fun quotient => ?_)
    refine bind_ne_error _ _ _ (of_range_ne_domain_error _ _ _) (fun remainder => ?_)
    simp [pure, Except.pure]

/-- For a non-empty divisor `quotient_remainder` raises `std::domain_error` exactly when
the divisor is the zero constant `[0]`. -/
theorem quotient_remainder_domain_error_iff (dividend divisor : polynomial T)
    (hq : divisor ≠ []) :
    quotient_remainder dividend divisor = .error .domain_error ↔ divisor = [0] := by
  obtain ⟨b, bs, rfl⟩ := List.exists_cons_of_ne_nil hq
  have hcore := unchecked_synthetic_division_ne_domain_error dividend (b :: bs)
  constructor
  · intro h
    by_cases hbs : bs.length = 0
    · have hnil : bs = [] := List.length_eq_zero.mp hbs
      subst hnil
      by_cases hb : b = 0
      · rw [hb]
      · exfalso
        simp only [quotient_remainder, quotient_remainder_by, degree_cons, List.length_nil,
          if_true, rd, List.getElem?_cons_zero, bind, Except.bind, pure, Except.pure, hb,
          decide_False, Bool.false_eq_true, if_false] at h
        split at h
        · simp at h
        · exact hcore h
    · exfalso
      simp only [quotient_remainder, quotient_remainder_by, degree_cons, hbs, if_false, bind,
        Except.bind, pure, Except.pure, Bool.false_eq_true] at h
      split at h
      · simp at h
      · exact hcore h
  · rintro h
    injection h with h1 h2
    subst h1 h2
    simp [quotient_remainder, quotient_remainder_by, polynomial.degree, size_t_sub, rd, bind,
      Except.bind, pure, Except.pure, throw, throwThe, MonadExceptOf.throw]

end raised_error

/-! ## The Chebyshev transform -/

section chebyshev_coefficients

variable {T : Type} [Field T] [CharZero T]

variable [DecidableEq T]

end chebyshev_coefficients

section chebyshev_values

variable {T : Type} [CommRing T]

end chebyshev_values

section int_index

variable {α : Type}

theorem rd_at_natCast (v : List α) (i : Nat) : rd_at v (i : ℤ) = rd v i := by
  simp [rd_at]

end int_index

section clenshaw

variable {T : Type} [Field T] [DecidableEq T]

end clenshaw

section triangular_solve

variable {T : Type} [Field T] [DecidableEq T] [CharZero T]

end triangular_solve

section round_trip

variable {T : Type} [Field T] [DecidableEq T] [CharZero T]

end round_trip

section round_trip_claim

end round_trip_claim


/-! ## Addition and subtraction -/

section sums

variable {T : Type} [CommRing T]

theorem getElem?_eq_some_getD (l : List T) (i : Nat) (h : i < l.length) :
    l[i]? = some (l.getD i 0) := by
  simp [List.getD_eq_getElem?_getD, List.getElem?_eq_getElem h]

/-- What `operator-=` returns: it never faults, and coefficient `k` of the result is the
difference of the coefficients `k` of the operands, an absent one counting as zero. -/
theorem sub_assign_spec (a b : polynomial T) :
    ∃ r, polynomial.sub_assign a b = .ok r ∧ r.length = max a.length b.length ∧
      ∀ k, r.getD k 0 = a.getD k 0 - b.getD k 0 := by
  have hmin : min a.length b.length = b.length ∨ 0 + min a.length b.length = a.length := by
    rcases Nat.le_total a.length b.length with h | h
    · right; simp [h]
    · left; simp [h]
  obtain ⟨r, hr, hlen, hval⟩ := shift_combine (fun x y : T => x - y) (fun y : T => -y)
    (by simp) (by simp) b a 0 (min a.length b.length) (by simp) (by simp) hmin
  refine ⟨r, ?_, ?_, ?_⟩
  · simp only [Nat.zero_add] at hr
    exact hr
  · rw [hlen]; omega
  · intro k
    simpa using hval k

/-- C11: for all polynomials `a`, `b`, `operator+=` returns a vector of exactly
`max(size(a), size(b))` coefficients; coefficient `i` is `a[i] + b[i]` for
`i < min(size(a), size(b))` and, from there on, the coefficient `i` of the longer
operand; the right operand is an input only; and `[1,2,3] + [1,1] = [2,3,3]`. -/
theorem add_assign_zero_padded (a b : polynomial T) :
    (∃ r, polynomial.add_assign a b = .ok r ∧ r.length = max a.size b.size ∧
      (∀ i, i < min a.size b.size → r[i]? = some (a.getD i 0 + b.getD i 0)) ∧
      (∀ i, min a.size b.size ≤ i → r[i]? = if a.size ≤ b.size then b[i]? else a[i]?)) ∧
    polynomial.add_assign ([1, 2, 3] : polynomial ℤ) [1, 1] = .ok [2, 3, 3] := by
  constructor
  · obtain ⟨r, hr, hlen, hval⟩ := add_assign_spec a b
    simp only [polynomial.size]
    refine ⟨r, hr, hlen, ?_, ?_⟩
    · intro i hi
      rw [getElem?_eq_some_getD r i (by omega), hval]
    · intro i hi
      by_cases hin : i < r.length
      · rw [getElem?_eq_some_getD r i hin, hval]
        by_cases hab : a.length ≤ b.length
        · rw [if_pos hab, getD_of_le a i (by omega), getElem?_eq_some_getD b i (by omega)]
          simp
        · rw [if_neg hab, getD_of_le b i (by omega), getElem?_eq_some_getD a i (by omega)]
          simp
      · rw [List.getElem?_eq_none (by omega)]
        split
        · rw [List.getElem?_eq_none (by omega)]
        · rw [List.getElem?_eq_none (by omega)]
  · simp [polynomial.add_assign, polynomial.size, for_loop, iterate, rd, wr, bind, Except.bind,
      pure, Except.pure]

/-- C12: for all polynomials `a`, `b`, `a - b` has exactly `max(size(a), size(b))`
coefficients, so never fewer than `a`; coefficient `i` is `a[i] - b[i]` on the overlap,
`a[i]` where only `a` has an index `i` and `-b[i]` where only `b` has one; and `a - a`
is the all-zero vector of length `size(a)`. -/
theorem operator_sub_never_trims (a b : polynomial T) :
    (∃ r, operator_sub a b = .ok r ∧ r.length = max a.size b.size ∧ a.size ≤ r.length ∧
      (∀ i, i < min a.size b.size → r[i]? = some (a.getD i 0 - b.getD i 0)) ∧
      (∀ i, b.size ≤ i → r[i]? = a[i]?) ∧
      (∀ i, a.size ≤ i → r[i]? = b[i]?.map (fun c => -c))) ∧
    operator_sub a a = .ok (List.replicate a.size 0) := by
  constructor
  · obtain ⟨r, hr, hlen, hval⟩ := sub_assign_spec a b
    simp only [polynomial.size]
    refine ⟨r, hr, hlen, by omega, ?_, ?_, ?_⟩
    · intro i hi
      rw [getElem?_eq_some_getD r i (by omega), hval]
    · intro i hi
      by_cases hin : i < a.length
      · rw [getElem?_eq_some_getD r i (by omega), hval, getD_of_le b i hi,
          getElem?_eq_some_getD a i hin]
        simp
      · rw [List.getElem?_eq_none (by omega), List.getElem?_eq_none (by omega)]
    · intro i hi
      by_cases hin : i < b.length
      · rw [getElem?_eq_some_getD r i (by omega), hval, getD_of_le a i hi,
          getElem?_eq_some_getD b i hin]
        simp
      · rw [List.getElem?_eq_none (by omega), List.getElem?_eq_none (by omega)]
        rfl
  · obtain ⟨r, hr, hlen, hval⟩ := sub_assign_spec a a
    rw [operator_sub, hr]
    congr 1
    apply list_ext_getD
    · simp [hlen, polynomial.size]
    · intro k hk
      rw [hval, sub_self]
      have hk' : k < (List.replicate (polynomial.size a) (0 : T)).length := by
        simpa [polynomial.size, hlen] using hk
      have := getElem?_eq_some_getD (List.replicate (polynomial.size a) (0 : T)) k hk'
      rw [List.getElem?_replicate] at this
      simp only [List.length_replicate] at hk'
      rw [if_pos hk'] at this
      exact Option.some.inj this

end sums

section scalar_minus

variable {T : Type} [CommRing T]

theorem evaluate_map_neg (l : List T) (x : T) :
    polynomial.evaluate (l.map (fun c => -c)) x = -polynomial.evaluate l x := by
  induction l with
  | nil => simp [polynomial.evaluate, evaluate_polynomial]
  | cons c cs ih =>
    simp only [polynomial.evaluate, evaluate_polynomial, List.map_cons, List.foldr_cons] at ih ⊢
    rw [ih]
    ring

/-- C20: for every scalar `a` and non-empty polynomial `p = [p0, p1, ..., pn]`, the free
operator `a - p` returns `[a - p0, -p1, ..., -pn]`, of the size of `p`; its value at `x`
is `a - evaluate(p, x)`, and it is the coefficientwise negation of `p - a`. The operand
`p` is an input only. -/
theorem scalar_minus_polynomial (a : T) (p : polynomial T) (hp : p ≠ []) (x : T) :
    ∃ r, operator_sub_scalar_poly a p = .ok r ∧
      r = (a - p.headD 0) :: p.tail.map (fun c => -c) ∧
      r.length = p.size ∧
      polynomial.evaluate r x = a - polynomial.evaluate p x ∧
      r = (operator_sub_poly_scalar p a).map (fun c => -c) := by
  obtain ⟨p0, ps, rfl⟩ := List.exists_cons_of_ne_nil hp
  obtain ⟨r, hr, hlen, hval⟩ := sub_assign_spec (polynomial.of_point a) (p0 :: ps)
  have hform : r = (a - p0) :: ps.map (fun c => -c) := by
    apply list_ext_getD
    · simp [hlen, polynomial.of_point]
    · intro k _
      rw [hval]
      cases k with
      | zero => simp [polynomial.of_point]
      | succ k =>
        simp only [polynomial.of_point, List.getD_cons_succ, List.getD_nil, zero_sub]
        rw [getD_map_eq (fun c : T => -c) (by simp)]
  refine ⟨r, hr, ?_, ?_, ?_, ?_⟩
  · simpa using hform
  · rw [hform]
    simp [polynomial.size]
  · rw [hform]
    have h1 : polynomial.evaluate ((a - p0) :: ps.map (fun c => -c)) x =
        polynomial.evaluate (ps.map (fun c => -c)) x * x + (a - p0) := by
      simp [polynomial.evaluate, evaluate_polynomial]
    have h2 : polynomial.evaluate (p0 :: ps) x = polynomial.evaluate ps x * x + p0 := by
      simp [polynomial.evaluate, evaluate_polynomial]
    rw [h1, h2, evaluate_map_neg]
    ring
  · rw [hform]
    simp [operator_sub_poly_scalar, polynomial.sub_assign_scalar]

/-- The rule for scalar minus polynomial at `a = 5`, `p = [1, 2, 3]`, `x = 2`. -/
theorem scalar_minus_polynomial_witness :
    ([1, 2, 3] : polynomial ℤ) ≠ [] ∧
    ∃ r, operator_sub_scalar_poly (5 : ℤ) [1, 2, 3] = .ok r ∧
      r = (5 - ([1, 2, 3] : polynomial ℤ).headD 0) ::
        ([1, 2, 3] : polynomial ℤ).tail.map (fun c => -c) ∧
      r.length = polynomial.size ([1, 2, 3] : polynomial ℤ) ∧
      polynomial.evaluate r 2 = 5 - polynomial.evaluate ([1, 2, 3] : polynomial ℤ) 2 ∧
      r = (operator_sub_poly_scalar ([1, 2, 3] : polynomial ℤ) 5).map (fun c => -c) :=
  ⟨by simp, scalar_minus_polynomial 5 [1, 2, 3] (by simp) 2⟩

end scalar_minus

section empty_receiver

theorem iterate_error_first {σ : Type} (body : Nat → σ → Except Fault σ) (e : Fault)
    (n lo : Nat) (s : σ) (hn : 0 < n) (h : body lo s = .error e) :
    iterate body n lo s = .error e := by
  obtain ⟨k, rfl⟩ : ∃ k, n = k + 1 := ⟨n - 1, by omega⟩
  rw [iterate, h]

/-- C19: for the empty receiver and the multiplier `[1, 1]`, `operator*=` computes
`s = size() - i` as `0 - 1`, which wraps, and its accumulation loop indexes `m_data[1]`
of an empty vector. -/
theorem mul_assign_empty_receiver :
    polynomial.mul_assign ([] : polynomial ℤ) [1, 1] = .error Fault.out_of_range := by
  have hinner : ∀ t : polynomial ℤ,
      for_loop 0 (size_t_sub (polynomial.size ([] : polynomial ℤ)) 1) ([] : polynomial ℤ)
        (fun j m_data => do
          let a ← rd m_data (1 + j)
          let b ← rd t j
          wr m_data (1 + j) (a + b)) = .error Fault.out_of_range := by
    intro t
    rw [for_loop]
    apply iterate_error_first
    · simp [size_t_sub, polynomial.size]
    · simp [rd, bind, Except.bind]
  have h0 : rd ([1, 1] : polynomial ℤ) 0 = .ok 1 := rfl
  have h1 : rd ([1, 1] : polynomial ℤ) 1 = .ok 1 := rfl
  simp only [bind, Except.bind] at hinner
  unfold polynomial.mul_assign
  simp only [h0, bind, Except.bind, polynomial.mul_assign_scalar, List.map_nil]
  rw [for_loop]
  apply iterate_error_first
  · simp [polynomial.size]
  · simp only [h1]
    rw [hinner]

end empty_receiver

section vanishing

variable {T : Type} [Field T] [DecidableEq T]

/-- C14: `chebyshev_coefficient(n, m)` returns 0 whenever `m > n` or `n` and `m` have
different parity, and `chebyshev_coefficient(0, 0)` returns 1. -/
theorem chebyshev_coefficient_vanishing (n m : Nat) (h : m > n ∨ n % 2 ≠ m % 2) :
    chebyshev_coefficient n m = .ok (0 : T) ∧ chebyshev_coefficient 0 0 = .ok (1 : T) := by
  constructor
  · unfold chebyshev_coefficient
    by_cases h1 : m > n
    · rw [if_pos h1]
      rfl
    · rw [if_neg h1]
      have h2 : n &&& 1 ≠ m &&& 1 := by
        rw [Nat.and_one_is_mod, Nat.and_one_is_mod]
        rcases h with h | h
        · exact absurd h h1
        · exact h
      rw [if_pos h2]
      rfl
  · simp [chebyshev_coefficient, pure, Except.pure]

/-- The vanishing rule at `n = 2`, `m = 1` over the rationals. -/
theorem chebyshev_coefficient_vanishing_witness :
    ((1 : Nat) > 2 ∨ 2 % 2 ≠ 1 % 2) ∧
    ((chebyshev_coefficient 2 1 : Except Fault ℚ) = .ok 0 ∧
      (chebyshev_coefficient 0 0 : Except Fault ℚ) = .ok 1) :=
  ⟨by decide, chebyshev_coefficient_vanishing 2 1 (by decide)⟩

end vanishing


/-! ## The synthetic division -/

section synthetic_division

variable {T : Type} [Field T] [DecidableEq T]

/-- The function `unchecked_synthetic_division` is its elimination loop followed by the
split of the working buffer at `m`. -/
theorem unchecked_synthetic_division_split (dividend divisor : polynomial T) :
    unchecked_synthetic_division dividend divisor =
      (working_buffer dividend divisor >>= fun w => do
        let m := size_t_add (size_t_sub dividend.degree divisor.degree) 1
        let star_m ← rd w m
        let l := m + (if star_m = 0 then 1 else divisor.degree)
        let quotient ← polynomial.of_range w 0 m
        let remainder ← polynomial.of_range w m l
        pure (quotient, remainder)) := by
  unfold unchecked_synthetic_division working_buffer
  cases rd divisor 0 with
  | error e => rfl
  | ok normalizer => rfl

/-- C15: for the dividend `[1]` and the non-zero constant divisor `[2]`, which satisfy
the precondition, the working buffer is `[1/2]`, of length 1, and the read of the element
at the quotient boundary `m = 1` is outside it. -/
theorem unchecked_synthetic_division_boundary_read :
    polynomial.degree ([2] : polynomial ℚ) ≤ polynomial.degree ([1] : polynomial ℚ) ∧
    working_buffer ([1] : polynomial ℚ) [2] = .ok [1 / 2] ∧
    size_t_add (size_t_sub (polynomial.degree ([1] : polynomial ℚ))
      (polynomial.degree ([2] : polynomial ℚ))) 1 = 1 ∧
    rd ([1 / 2] : List ℚ) 1 = .error Fault.out_of_range ∧
    unchecked_synthetic_division ([1] : polynomial ℚ) [2] = .error Fault.out_of_range := by
  refine ⟨by simp [polynomial.degree, size_t_sub], ?_, by simp [polynomial.degree, size_t_sub,
    size_t_add], by simp [rd], ?_⟩
  · norm_num [working_buffer, polynomial.degree, size_t_sub, size_t_add, rd, wr, for_loop,
      iterate, coefficient_div, bind, Except.bind, pure, Except.pure]
  · norm_num [unchecked_synthetic_division, polynomial.degree, size_t_sub, size_t_add, rd, wr,
      for_loop, iterate, coefficient_div, polynomial.of_range, bind, Except.bind, pure,
      Except.pure]

/-- C13: for the dividend `[1,0,0,5]` and the divisor `[1,0,0]`, of degree 2, the working
buffer ends as `[1,0,0,5]` with the quotient boundary `m = 2`; its entry 3 is 5, not
zero, yet the returned remainder is the single element `[0]`. -/
theorem unchecked_synthetic_division_truncates :
    working_buffer ([1, 0, 0, 5] : polynomial ℚ) [1, 0, 0] = .ok [1, 0, 0, 5] ∧
    size_t_add (size_t_sub (polynomial.degree ([1, 0, 0, 5] : polynomial ℚ))
      (polynomial.degree ([1, 0, 0] : polynomial ℚ))) 1 = 2 ∧
    unchecked_synthetic_division ([1, 0, 0, 5] : polynomial ℚ) [1, 0, 0] =
      .ok ([1, 0], [0]) ∧
    quotient_remainder ([1, 0, 0, 5] : polynomial ℚ) [1, 0, 0] = .ok ([1, 0], [0]) := by
  refine ⟨?_, by simp [polynomial.degree, size_t_sub, size_t_add], ?_, ?_⟩
  · norm_num [working_buffer, polynomial.degree, size_t_sub, size_t_add, rd, wr, for_loop,
      iterate, coefficient_div, bind, Except.bind, pure, Except.pure]
  · norm_num [unchecked_synthetic_division, polynomial.degree, size_t_sub, size_t_add, rd, wr,
      for_loop, iterate, coefficient_div, polynomial.of_range, bind, Except.bind, pure,
      Except.pure]
  · norm_num [quotient_remainder, quotient_remainder_by, unchecked_synthetic_division,
      polynomial.degree, size_t_sub, size_t_add, rd, wr, for_loop, iterate, coefficient_div,
      polynomial.of_range, polynomial.of_point, bind, Except.bind, pure, Except.pure]

end synthetic_division

section elimination

variable {T : Type} [Field T] [DecidableEq T]

omit [DecidableEq T] in
/-- The inner loop of the synthetic division at row `i`: it subtracts `divisor[j] * c`
from the entries `i + 1, ..., i + d` of the working buffer. -/
theorem eliminate_row (b w : List T) (i d : Nat) (c : T) (hb : b.length = d + 1)
    (hw : i + d < w.length) :
    ∃ w', for_loop 1 (d + 1) w (fun j w => do
        let dj ← rd b j
        let y ← rd w (i + j)
        wr w (i + j) (y + -dj * c)) = .ok w' ∧ w'.length = w.length ∧
      ∀ k, w'.getD k 0 =
        if i + 1 ≤ k ∧ k ≤ i + d then w.getD k 0 + -(b.getD (k - i) 0) * c else w.getD k 0 := by
  obtain ⟨w', hrun, hlen, hval⟩ := for_loop_inv
    (fun j w => do
        let dj ← rd b j
        let y ← rd w (i + j)
        wr w (i + j) (y + -dj * c))
    (fun j w' => w'.length = w.length ∧ ∀ k, w'.getD k 0 =
        if i + 1 ≤ k ∧ k < i + j then w.getD k 0 + -(b.getD (k - i) 0) * c else w.getD k 0)
    1 (d + 1) w (by omega) ⟨rfl, fun k => by
      have h0 : ¬ (i + 1 ≤ k ∧ k < i + 1) := by omega
      rw [if_neg h0]⟩
    (by
      rintro j w' hj1 hj2 ⟨hlen, hval⟩
      have hij : i + j < w'.length := by omega
      refine ⟨w'.set (i + j) (w'.getD (i + j) 0 + -(b.getD j 0) * c), ?_, ?_, ?_⟩
      · simp [rd_of_lt b j (by omega), rd_of_lt w' _ hij, wr_of_lt w' _ _ hij, bind, Except.bind]
      · simp [hlen]
      · intro k
        rw [getD_set_eq _ _ _ _ hij]
        by_cases hk : k = i + j
        · subst hk
          have h3 : i + 1 ≤ i + j ∧ i + j < i + (j + 1) := ⟨by omega, by omega⟩
          have h4 : ¬ (i + 1 ≤ i + j ∧ i + j < i + j) := by omega
          have h5 : i + j - i = j := by omega
          rw [if_pos rfl, if_pos h3, hval, if_neg h4, h5]
        · rw [if_neg hk, hval]
          by_cases hin : i + 1 ≤ k ∧ k < i + j
          · have : i + 1 ≤ k ∧ k < i + (j + 1) := ⟨hin.1, by omega⟩
            rw [if_pos hin, if_pos this]
          · have : ¬ (i + 1 ≤ k ∧ k < i + (j + 1)) := by omega
            rw [if_neg hin, if_neg this])
  refine ⟨w', hrun, hlen, fun k => ?_⟩
  rw [hval]
  by_cases hin : i + 1 ≤ k ∧ k ≤ i + d
  · have : i + 1 ≤ k ∧ k < i + (d + 1) := ⟨hin.1, by omega⟩
    rw [if_pos hin, if_pos this]
  · have : ¬ (i + 1 ≤ k ∧ k < i + (d + 1)) := by omega
    rw [if_neg hin, if_neg this]

/-- One iteration of the outer loop of the synthetic division at row `i`, for a non-zero
normalizer: entry `i` becomes the quotient coefficient `c = w[i] / divisor[0]` and the
`d` entries after it lose `divisor[j] * c`. -/
theorem division_step (b w : List T) (i d : Nat) (hb : b.length = d + 1)
    (hw : i + d < w.length) (hb0 : b.getD 0 0 ≠ 0) :
    ∃ w', (do
        let x ← rd w i
        if x ≠ 0 then
          let coefficient ← coefficient_div x (b.getD 0 0)
          let w1 ← wr w i coefficient
          for_loop 1 (d + 1) w1 fun j w2 => do
            let dj ← rd b j
            let y ← rd w2 (i + j)
            wr w2 (i + j) (y + -dj * coefficient)
        else
          pure w) = .ok w' ∧ w'.length = w.length ∧
      ∀ k, w'.getD k 0 =
        if k = i then w.getD i 0 / b.getD 0 0
        else if i + 1 ≤ k ∧ k ≤ i + d then
          w.getD k 0 + -(b.getD (k - i) 0) * (w.getD i 0 / b.getD 0 0)
        else w.getD k 0 := by
  have hi : i < w.length := by omega
  by_cases hx : w.getD i 0 = 0
  · refine ⟨w, ?_, rfl, ?_⟩
    · simp only [rd_of_lt w i hi, hx, bind, Except.bind, ne_eq, not_true_eq_false, if_false]
      rfl
    · intro k
      by_cases hk : k = i
      · rw [if_pos hk, hk, hx, zero_div]
      · rw [if_neg hk, hx, zero_div, mul_zero, add_zero]
        split <;> rfl
  · obtain ⟨w', hrun, hlen, hval⟩ := eliminate_row b (w.set i (w.getD i 0 / b.getD 0 0)) i d
      (w.getD i 0 / b.getD 0 0) hb (by simpa using hw)
    refine ⟨w', ?_, by simpa using hlen, ?_⟩
    · simp only [rd_of_lt w i hi, hx, coefficient_div, hb0, wr_of_lt w i _ hi, bind, Except.bind,
        ne_eq, not_false_eq_true, if_true, if_false]
      simp only [bind, Except.bind] at hrun
      exact hrun
    · intro k
      rw [hval, getD_set_eq _ _ _ _ hi]
      by_cases hk : k = i
      · have : ¬ (i + 1 ≤ k ∧ k ≤ i + d) := by omega
        rw [if_neg this, if_pos hk, if_pos hk]
      · rw [if_neg hk, if_neg hk]

end elimination

section long_division

variable {T : Type} [Field T]

/-- One row of long division, with index 0 as the highest power: splitting off the
quotient term of row `i` leaves the dividend unchanged. -/
theorem long_division_step (n d i : Nat) (hid : i + d ≤ n) (w w' bf : Nat → T) (c : T)
    (hc : c * bf 0 = w i) (hi : w' i = c) (hlow : ∀ k, k < i → w' k = w k)
    (hhigh : ∀ k, i < k → w' k = if k ≤ i + d then w k + -(bf (k - i)) * c else w k) :
    (∑ k ∈ Finset.range i, Polynomial.C (w k) * Polynomial.X ^ (n - d - k)) *
        (∑ j ∈ Finset.range (d + 1), Polynomial.C (bf j) * Polynomial.X ^ (d - j)) +
      ∑ k ∈ Finset.range (n + 1 - i), Polynomial.C (w (i + k)) * Polynomial.X ^ (n - i - k) =
    (∑ k ∈ Finset.range (i + 1), Polynomial.C (w' k) * Polynomial.X ^ (n - d - k)) *
        (∑ j ∈ Finset.range (d + 1), Polynomial.C (bf j) * Polynomial.X ^ (d - j)) +
      ∑ k ∈ Finset.range (n + 1 - (i + 1)),
        Polynomial.C (w' (i + 1 + k)) * Polynomial.X ^ (n - (i + 1) - k) := by
  have hN : n + 1 - i = (n - i) + 1 := by omega
  have hN' : n + 1 - (i + 1) = n - i := by omega
  have hQ : ∑ k ∈ Finset.range i, Polynomial.C (w' k) * Polynomial.X ^ (n - d - k) =
      ∑ k ∈ Finset.range i, Polynomial.C (w k) * Polynomial.X ^ (n - d - k) := by
    apply Finset.sum_congr rfl
    intro k hk
    rw [hlow k (Finset.mem_range.mp hk)]
  have hR : ∑ k ∈ Finset.range d,
        Polynomial.C (bf (k + 1)) * (Polynomial.X : Polynomial T) ^ (n - i - 1 - k) =
      Polynomial.X ^ (n - d - i) *
        ∑ k ∈ Finset.range d, Polynomial.C (bf (k + 1)) * Polynomial.X ^ (d - (k + 1)) := by
    rw [Finset.mul_sum]
    apply Finset.sum_congr rfl
    intro k hk
    have hk' := Finset.mem_range.mp hk
    have e : n - i - 1 - k = (n - d - i) + (d - (k + 1)) := by omega
    rw [e, pow_add]
    ring
  have hS : ∑ k ∈ Finset.range (n - i),
        Polynomial.C (w' (i + 1 + k)) * (Polynomial.X : Polynomial T) ^ (n - (i + 1) - k) =
      ∑ k ∈ Finset.range (n - i),
          Polynomial.C (w (i + (k + 1))) * Polynomial.X ^ (n - i - (k + 1)) -
        Polynomial.C c * ∑ k ∈ Finset.range d,
          Polynomial.C (bf (k + 1)) * Polynomial.X ^ (n - i - 1 - k) := by
    have hsub : ∑ k ∈ Finset.range d,
          Polynomial.C (bf (k + 1)) * (Polynomial.X : Polynomial T) ^ (n - i - 1 - k) =
        ∑ k ∈ Finset.range (n - i),
          (if k < d then Polynomial.C (bf (k + 1)) * (Polynomial.X : Polynomial T) ^ (n - i - 1 - k)
            else 0) := by
      have h1 : ∑ k ∈ Finset.range d,
            (if k < d then
              Polynomial.C (bf (k + 1)) * (Polynomial.X : Polynomial T) ^ (n - i - 1 - k)
            else 0) =
          ∑ k ∈ Finset.range (n - i),
            (if k < d then
              Polynomial.C (bf (k + 1)) * (Polynomial.X : Polynomial T) ^ (n - i - 1 - k)
            else 0) := by
        apply Finset.sum_subset
        · intro k hk
          have := Finset.mem_range.mp hk
          exact Finset.mem_range.mpr (by omega)
        · intro k _ hk
          rw [if_neg (fun h => hk (Finset.mem_range.mpr h))]
      rw [← h1]
      apply Finset.sum_congr rfl
      intro k hk
      rw [if_pos (Finset.mem_range.mp hk)]
    rw [hsub, Finset.mul_sum, ← Finset.sum_sub_distrib]
    apply Finset.sum_congr rfl
    intro k _
    have e1 : i + 1 + k = i + (k + 1) := by omega
    have e2 : n - (i + 1) - k = n - i - (k + 1) := by omega
    have e3 : n - i - 1 - k = n - i - (k + 1) := by omega
    have e4 : i + (k + 1) - i = k + 1 := by omega
    rw [e1, e2, e3, hhigh (i + (k + 1)) (by omega), e4]
    by_cases hk : k < d
    · have h1 : i + (k + 1) ≤ i + d := by omega
      rw [if_pos h1, if_pos hk]
      simp only [Polynomial.C_add, Polynomial.C_neg, Polynomial.C_mul]
      ring
    · have h1 : ¬ i + (k + 1) ≤ i + d := by omega
      rw [if_neg h1, if_neg hk]
      ring
  have hX : (Polynomial.X : Polynomial T) ^ (n - i - 0) =
      Polynomial.X ^ (n - d - i) * Polynomial.X ^ (d - 0) := by
    rw [← pow_add]
    congr 1
    omega
  rw [hN, hN', Finset.sum_range_succ' _ (n - i), Finset.sum_range_succ _ i, hQ, hS, hR,
    Finset.sum_range_succ' _ d, hi, Nat.add_zero, ← hc, hX, Polynomial.C_mul]
  ring

end long_division

section long_division_claim

variable {T : Type} [Field T] [DecidableEq T]

omit [Field T] [DecidableEq T] in
theorem degree_of_length (p : polynomial T) (n : Nat) (h : p.length = n + 1) :
    polynomial.degree p = n := by
  simp [polynomial.degree, size_t_sub, h]

/-- What the elimination loop leaves in the working buffer when the divisor has degree
`d <= n` and a non-zero coefficient 0: with index 0 read as the highest power, the first
`n - d + 1` entries are the quotient and the last `d` the remainder of the dividend. -/
theorem working_buffer_spec (a b : polynomial T) (n d : Nat) (ha : a.length = n + 1)
    (hb : b.length = d + 1) (hdn : d ≤ n) (hsz : a.length < 2 ^ 64) (hb0 : b.getD 0 0 ≠ 0) :
    ∃ w, working_buffer a b = .ok w ∧ w.length = n + 1 ∧
      ∑ k ∈ Finset.range (n + 1), Polynomial.C (a.getD k 0) * Polynomial.X ^ (n - k) =
        (∑ k ∈ Finset.range (n - d + 1), Polynomial.C (w.getD k 0) * Polynomial.X ^ (n - d - k)) *
          (∑ j ∈ Finset.range (d + 1), Polynomial.C (b.getD j 0) * Polynomial.X ^ (d - j)) +
        ∑ k ∈ Finset.range d,
          Polynomial.C (w.getD (n - d + 1 + k) 0) * Polynomial.X ^ (d - 1 - k) := by
  have hbound : size_t_add (size_t_sub n d) 1 = n - d + 1 := by
    rw [size_t_sub_of_le _ _ hdn, size_t_add]
    apply Nat.mod_eq_of_lt
    omega
  have hinner : size_t_add d 1 = d + 1 := by
    rw [size_t_add]
    apply Nat.mod_eq_of_lt
    omega
  obtain ⟨w, hrun, hlen, hinv⟩ := for_loop_inv
    (fun i w => do
        let x ← rd w i
        if x ≠ 0 then
          let coefficient ← coefficient_div x (b.getD 0 0)
          let w1 ← wr w i coefficient
          for_loop 1 (d + 1) w1 fun j w2 => do
            let dj ← rd b j
            let y ← rd w2 (i + j)
            wr w2 (i + j) (y + -dj * coefficient)
        else
          pure w)
    (fun i w => w.length = n + 1 ∧
      ∑ k ∈ Finset.range (n + 1), Polynomial.C (a.getD k 0) * Polynomial.X ^ (n - k) =
        (∑ k ∈ Finset.range i, Polynomial.C (w.getD k 0) * Polynomial.X ^ (n - d - k)) *
          (∑ j ∈ Finset.range (d + 1), Polynomial.C (b.getD j 0) * Polynomial.X ^ (d - j)) +
        ∑ k ∈ Finset.range (n + 1 - i),
          Polynomial.C (w.getD (i + k) 0) * Polynomial.X ^ (n - i - k))
    0 (n - d + 1) a (Nat.zero_le _) ⟨ha, by simp⟩
    (by
      rintro i w - hi ⟨hlen, hinv⟩
      obtain ⟨w', hrun, hlen', hval⟩ := division_step b w i d hb (by omega) hb0
      refine ⟨w', hrun, by omega, ?_⟩
      rw [hinv]
      apply long_division_step n d i (by omega) (fun k => w.getD k 0) (fun k => w'.getD k 0)
        (fun j => b.getD j 0) (w.getD i 0 / b.getD 0 0)
      · exact div_mul_cancel₀ _ hb0
      · rw [hval, if_pos rfl]
      · intro k hk
        rw [hval, if_neg (by omega), if_neg (by omega)]
      · intro k hk
        rw [hval, if_neg (by omega)]
        by_cases h : k ≤ i + d
        · rw [if_pos h, if_pos ⟨by omega, h⟩]
        · rw [if_neg h, if_neg (fun hh => h hh.2)])
  refine ⟨w, ?_, hlen, ?_⟩
  · simp only [working_buffer, degree_of_length a n ha, degree_of_length b d hb, hbound, hinner,
      rd_of_lt b 0 (by omega), bind, Except.bind]
    simp only [bind, Except.bind] at hrun
    exact hrun
  · rw [hinv]
    congr 1
    have e : n + 1 - (n - d + 1) = d := by omega
    rw [e]
    apply Finset.sum_congr rfl
    intro k hk
    have hk' := Finset.mem_range.mp hk
    have e2 : n - (n - d + 1) - k = d - 1 - k := by omega
    rw [e2]

omit [Field T] [DecidableEq T] in
theorem getD_take_of_lt [Zero T] (l : List T) (m k : Nat) (h : k < m) :
    (l.take m).getD k 0 = l.getD k 0 := by
  simp [List.getD_eq_getElem?_getD, List.getElem?_take, h]

/-- C16: for coefficients in a field, a dividend `a` of degree `n` and a divisor `b` of
degree `d` with `1 <= d <= n` and `b[0] != 0` (sizes being `std::size_t` values),
`unchecked_synthetic_division(a, b)` returns a pair `(q, r)`. `q` has `n - d + 1`
coefficients, and with `rem` the `d` entries of the working buffer after the quotient,
`sum a[i] x^(n-i) = (sum q[i] x^(n-d-i)) * (sum b[j] x^(d-j)) + sum rem[i] x^(d-1-i)`
as polynomials in `x`. The returned `r` is `rem` cut to one entry when `rem[0] == 0` and
all of `rem` otherwise, so `r` has exactly `d` coefficients if and only if
`rem[0] != 0` or `d = 1`, and whenever it has, the identity holds with `r` as the
remainder. -/
theorem synthetic_division_is_long_division (a b : polynomial T) (n d : Nat)
    (ha : a ≠ []) (hb : b ≠ []) (hsz : a.size < 2 ^ 64)
    (hn : a.degree = n) (hd : b.degree = d) (h1 : 1 ≤ d) (h2 : d ≤ n)
    (hb0 : b.getD 0 0 ≠ 0) :
    ∃ (q r rem : polynomial T), unchecked_synthetic_division a b = .ok (q, r) ∧
      q.length = n - d + 1 ∧
      rem.length = d ∧
      (∑ i ∈ Finset.range (n + 1), Polynomial.C (a.getD i 0) * Polynomial.X ^ (n - i) =
        (∑ i ∈ Finset.range (n - d + 1),
            Polynomial.C (q.getD i 0) * Polynomial.X ^ (n - d - i)) *
          (∑ j ∈ Finset.range (d + 1), Polynomial.C (b.getD j 0) * Polynomial.X ^ (d - j)) +
        ∑ i ∈ Finset.range d, Polynomial.C (rem.getD i 0) * Polynomial.X ^ (d - 1 - i)) ∧
      r = rem.take (if rem.getD 0 0 = 0 then 1 else d) ∧
      (r.length = d ↔ (rem.getD 0 0 ≠ 0 ∨ d = 1)) ∧
      (r.length = d →
        ∑ i ∈ Finset.range (n + 1), Polynomial.C (a.getD i 0) * Polynomial.X ^ (n - i) =
          (∑ i ∈ Finset.range (n - d + 1),
              Polynomial.C (q.getD i 0) * Polynomial.X ^ (n - d - i)) *
            (∑ j ∈ Finset.range (d + 1), Polynomial.C (b.getD j 0) * Polynomial.X ^ (d - j)) +
          ∑ i ∈ Finset.range d, Polynomial.C (r.getD i 0) * Polynomial.X ^ (d - 1 - i)) := by
  have halen : a.length = n + 1 := by
    have := List.length_pos.mpr ha
    simp only [polynomial.degree, size_t_sub] at hn
    rw [if_pos (by omega)] at hn
    omega
  have hblen : b.length = d + 1 := by
    have := List.length_pos.mpr hb
    simp only [polynomial.degree, size_t_sub] at hd
    rw [if_pos (by omega)] at hd
    omega
  obtain ⟨w, hw, hwlen, hid⟩ := working_buffer_spec a b n d halen hblen h2 hsz hb0
  have hbound : size_t_add (size_t_sub n d) 1 = n - d + 1 := by
    rw [size_t_sub_of_le _ _ h2, size_t_add]
    apply Nat.mod_eq_of_lt
    simp only [polynomial.size] at hsz
    omega
  have hm : n - d + 1 < w.length := by omega
  have hl : n - d + 1 + (if w.getD (n - d + 1) 0 = 0 then 1 else d) ≤ w.length := by
    split <;> omega
  have hrem0 : ((w.drop (n - d + 1)).take d).getD 0 0 = w.getD (n - d + 1) 0 := by
    rw [getD_take_of_lt _ _ 0 (by omega), getD_drop_eq]
  have hremlen : ((w.drop (n - d + 1)).take d).length = d := by
    simp only [List.length_take, List.length_drop]
    omega
  have hq : ∑ i ∈ Finset.range (n - d + 1),
      Polynomial.C (((w.drop 0).take (n - d + 1 - 0)).getD i 0) * Polynomial.X ^ (n - d - i) =
      ∑ i ∈ Finset.range (n - d + 1), Polynomial.C (w.getD i 0) * Polynomial.X ^ (n - d - i) := by
    apply Finset.sum_congr rfl
    intro i hi
    have hi' := Finset.mem_range.mp hi
    rw [List.drop_zero, Nat.sub_zero, getD_take_of_lt w _ i hi']
  have hrm : ∑ i ∈ Finset.range d,
      Polynomial.C (((w.drop (n - d + 1)).take d).getD i 0) * Polynomial.X ^ (d - 1 - i) =
      ∑ i ∈ Finset.range d,
        Polynomial.C (w.getD (n - d + 1 + i) 0) * Polynomial.X ^ (d - 1 - i) := by
    apply Finset.sum_congr rfl
    intro i hi
    have hi' := Finset.mem_range.mp hi
    rw [getD_take_of_lt _ _ i hi', getD_drop_eq]
  have hr : (w.drop (n - d + 1)).take
      (n - d + 1 + (if w.getD (n - d + 1) 0 = 0 then 1 else d) - (n - d + 1)) =
      ((w.drop (n - d + 1)).take d).take
        (if ((w.drop (n - d + 1)).take d).getD 0 0 = 0 then 1 else d) := by
    rw [hrem0, List.take_take, Nat.add_sub_cancel_left]
    congr 1
    split <;> omega
  have hiff : ((w.drop (n - d + 1)).take
      (n - d + 1 + (if w.getD (n - d + 1) 0 = 0 then 1 else d) - (n - d + 1))).length = d ↔
      (((w.drop (n - d + 1)).take d).getD 0 0 ≠ 0 ∨ d = 1) := by
    rw [hrem0, Nat.add_sub_cancel_left]
    simp only [List.length_take, List.length_drop]
    by_cases hz : w.getD (n - d + 1) 0 = 0
    · rw [if_pos hz]
      constructor
      · intro h
        right
        omega
      · rintro (h | h)
        · exact absurd hz h
        · omega
    · rw [if_neg hz]
      constructor
      · intro _
        exact Or.inl hz
      · intro _
        omega
  refine ⟨(w.drop 0).take (n - d + 1 - 0),
    (w.drop (n - d + 1)).take
      (n - d + 1 + (if w.getD (n - d + 1) 0 = 0 then 1 else d) - (n - d + 1)),
    (w.drop (n - d + 1)).take d, ?_, ?_, hremlen, ?_, hr, hiff, ?_⟩
  · rw [unchecked_synthetic_division_split, hw]
    simp only [bind, Except.bind, hn, hd, hbound, rd_of_lt w _ hm, polynomial.of_range,
      Nat.zero_le, true_and, if_pos (Nat.le_of_lt hm), hl, Nat.le_add_right, and_self, if_true,
      pure, Except.pure]
  · simp
    omega
  · rw [hid, hq, hrm]
  · intro hlen
    have hwidth : n - d + 1 + (if w.getD (n - d + 1) 0 = 0 then 1 else d) - (n - d + 1) = d := by
      by_cases hz : w.getD (n - d + 1) 0 = 0
      · rw [if_pos hz] at hlen ⊢
        simp only [List.length_take, List.length_drop] at hlen
        omega
      · rw [if_neg hz]
        omega
    rw [hwidth, hid, hq, hrm]

end long_division_claim

/-! ## The Chebyshev coefficients and the Clenshaw evaluator -/

section chebyshev_claims

end chebyshev_claims

section clenshaw_ring

variable {R : Type} [CommRing R] [Invertible (2 : R)]

/-- C18: for every non-empty coefficient sequence `a` over a commutative ring in which 2
is invertible and every point `x`, `evaluate_chebyshev(a, x)` returns
`a[0]/2 + sum over k from 1 to size(a) - 1 of a[k] * T_k(x)`, with `T_0 = 1`, `T_1 = x`,
`T_{k+1} = 2x T_k - T_{k-1}`. -/
theorem evaluate_chebyshev_is_series (a : List R) (ha : a ≠ []) (x : R) :
    evaluate_chebyshev_ring a x = .ok (a.getD 0 0 * ⅟2 +
      ∑ k ∈ Finset.Ico 1 a.length, a.getD k 0 * chebyshev_T x k) := by
  have hpos : 0 < a.length := List.length_pos.mpr ha
  have hcnt : (((a.length : ℤ) - 1 - 0 + ((1 : ℕ) : ℤ) - 1) / ((1 : ℕ) : ℤ)).toNat =
      a.length - 1 := by omega
  obtain ⟨y, hy, hA, -⟩ := iterate_inv
    (fun t s => clenshaw_step_ring a x ((a.length : ℤ) - 1 - ((1 : ℕ) : ℤ) * (t : ℤ)) s)
    (fun t s =>
      (∑ j ∈ Finset.range t, a.getD (a.length - t + j) 0 * chebyshev_T x (j + 1) =
        s.2.2 * x - s.2.1) ∧
      (∑ j ∈ Finset.range t, a.getD (a.length - t + j) 0 * chebyshev_T x j =
        s.2.2 - x * s.2.1))
    (a.length - 1) 0 ((0 : R), (0 : R), (0 : R)) (by simp)
    (by
      rintro t ⟨yk2, yk1, yk⟩ - ht ⟨hA, hB⟩
      have hidx : (a.length : ℤ) - 1 - ((1 : ℕ) : ℤ) * (t : ℤ) = ((a.length - 1 - t : ℕ) : ℤ) := by
        omega
      refine ⟨(yk1, yk, 2 * x * yk - yk1 + a.getD (a.length - 1 - t) 0), ?_, ?_, ?_⟩
      · simp only [clenshaw_step_ring, hidx, rd_at_natCast,
          rd_of_lt a (a.length - 1 - t) (by omega), bind, Except.bind, pure, Except.pure]
      · have hshift : ∀ j, a.length - (t + 1) + (j + 1) = a.length - t + j := by
          intro j; omega
        have h0 : a.length - (t + 1) + 0 = a.length - 1 - t := by omega
        rw [Finset.sum_range_succ']
        simp only [hshift, h0, chebyshev_T] at hA hB ⊢
        have hrec : ∑ j ∈ Finset.range t, a.getD (a.length - t + j) 0 *
              (2 * x * chebyshev_T x (j + 1) - chebyshev_T x j) =
            2 * x * (yk * x - yk1) - (yk - x * yk1) := by
          rw [← hA, ← hB, Finset.mul_sum, ← Finset.sum_sub_distrib]
          apply Finset.sum_congr rfl
          intro j _
          ring
        rw [hrec]
        ring
      · have hshift : ∀ j, a.length - (t + 1) + (j + 1) = a.length - t + j := by
          intro j; omega
        have h0 : a.length - (t + 1) + 0 = a.length - 1 - t := by omega
        rw [Finset.sum_range_succ']
        simp only [hshift, h0, chebyshev_T] at hA ⊢
        rw [hA]
        ring)
  have hone : a.length - (0 + (a.length - 1)) = 1 := by omega
  simp only [hone] at hA
  have hsum : ∑ k ∈ Finset.Ico 1 a.length, a.getD k 0 * chebyshev_T x k =
      y.2.2 * x - y.2.1 := by
    rw [← hA, Nat.zero_add, Finset.sum_Ico_eq_sum_range]
    apply Finset.sum_congr rfl
    intro k _
    rw [Nat.add_comm 1 k]
  simp only [evaluate_chebyshev_ring, for_down, hcnt, hy, rd_of_lt a 0 hpos, bind, Except.bind,
    pure, Except.pure, hsum]
  congr 1
  ring

end clenshaw_ring

section claims_witnesses

/-- The field embedding `evaluate_chebyshev` and the ring instantiation
`evaluate_chebyshev_ring` are the same function on a field in which 2 is invertible. -/
theorem evaluate_chebyshev_ring_eq {T : Type} [Field T] [DecidableEq T] [Invertible (2 : T)]
    (a : List T) (x : T) : evaluate_chebyshev_ring a x = evaluate_chebyshev a x := by
  have h2 : (2 : T) ≠ 0 := Invertible.ne_zero (2 : T)
  have hstep : clenshaw_step_ring a x = clenshaw_step a x := by
    funext i y
    rfl
  simp only [evaluate_chebyshev_ring, evaluate_chebyshev, hstep, coefficient_div, h2, if_false,
    bind, Except.bind, pure, Except.pure]
  cases for_down 1 ((a.length : ℤ) - 1) 0 ((0 : T), (0 : T), (0 : T)) (clenshaw_step a x) with
  | error e => rfl
  | ok y =>
    cases rd a 0 with
    | error e => rfl
    | ok a0 =>
      simp only [div_eq_mul_inv, invOf_eq_inv]

/-- The series of the Clenshaw evaluator at `a = [1, 2, 3]`, `x = 1/2` over the
rationals. -/
theorem evaluate_chebyshev_is_series_witness :
    ([1, 2, 3] : List ℚ) ≠ [] ∧
    evaluate_chebyshev_ring ([1, 2, 3] : List ℚ) (1 / 2) =
      .ok (([1, 2, 3] : List ℚ).getD 0 0 * ⅟2 +
        ∑ k ∈ Finset.Ico 1 ([1, 2, 3] : List ℚ).length,
          ([1, 2, 3] : List ℚ).getD k 0 * chebyshev_T (1 / 2 : ℚ) k) :=
  ⟨by simp, evaluate_chebyshev_is_series [1, 2, 3] (by simp) (1 / 2)⟩

/-- Long division at `a = [1, 2, 3, 4]` (degree 3) and `b = [1, 1, 1]` (degree 2) over the
rationals, where the code returns the quotient `[1, 1]` and the remainder `[1, 3]` of
exactly two coefficients:
`x^3 + 2x^2 + 3x + 4 = (x + 1)(x^2 + x + 1) + (x + 3)`. -/
theorem synthetic_division_is_long_division_witness :
    (([1, 2, 3, 4] : polynomial ℚ) ≠ [] ∧ ([1, 1, 1] : polynomial ℚ) ≠ [] ∧
      polynomial.size ([1, 2, 3, 4] : polynomial ℚ) < 2 ^ 64 ∧
      polynomial.degree ([1, 2, 3, 4] : polynomial ℚ) = 3 ∧
      polynomial.degree ([1, 1, 1] : polynomial ℚ) = 2 ∧ 1 ≤ 2 ∧ 2 ≤ 3 ∧
      ([1, 1, 1] : polynomial ℚ).getD 0 0 ≠ 0) ∧
    unchecked_synthetic_division ([1, 2, 3, 4] : polynomial ℚ) [1, 1, 1] =
      .ok ([1, 1], [1, 3]) ∧
    ∃ (q r rem : polynomial ℚ),
      unchecked_synthetic_division ([1, 2, 3, 4] : polynomial ℚ) [1, 1, 1] = .ok (q, r) ∧
      q.length = 3 - 2 + 1 ∧ rem.length = 2 ∧
      (∑ i ∈ Finset.range (3 + 1),
          Polynomial.C (([1, 2, 3, 4] : polynomial ℚ).getD i 0) * Polynomial.X ^ (3 - i) =
        (∑ i ∈ Finset.range (3 - 2 + 1),
            Polynomial.C (q.getD i 0) * Polynomial.X ^ (3 - 2 - i)) *
          (∑ j ∈ Finset.range (2 + 1),
            Polynomial.C (([1, 1, 1] : polynomial ℚ).getD j 0) * Polynomial.X ^ (2 - j)) +
        ∑ i ∈ Finset.range 2, Polynomial.C (rem.getD i 0) * Polynomial.X ^ (2 - 1 - i)) ∧
      r = rem.take (if rem.getD 0 0 = 0 then 1 else 2) ∧
      (r.length = 2 ↔ (rem.getD 0 0 ≠ 0 ∨ 2 = 1)) ∧
      (r.length = 2 →
        ∑ i ∈ Finset.range (3 + 1),
            Polynomial.C (([1, 2, 3, 4] : polynomial ℚ).getD i 0) * Polynomial.X ^ (3 - i) =
          (∑ i ∈ Finset.range (3 - 2 + 1),
              Polynomial.C (q.getD i 0) * Polynomial.X ^ (3 - 2 - i)) *
            (∑ j ∈ Finset.range (2 + 1),
              Polynomial.C (([1, 1, 1] : polynomial ℚ).getD j 0) * Polynomial.X ^ (2 - j)) +
          ∑ i ∈ Finset.range 2, Polynomial.C (r.getD i 0) * Polynomial.X ^ (2 - 1 - i)) :=
  ⟨⟨by simp, by simp, by simp [polynomial.size], by simp [polynomial.degree, size_t_sub],
      by simp [polynomial.degree, size_t_sub], by decide, by decide, by simp⟩,
    by
      norm_num [unchecked_synthetic_division, working_buffer, for_loop, iterate, rd, wr,
        coefficient_div, polynomial.degree, polynomial.size, polynomial.of_range, size_t_sub,
        size_t_add, bind, Except.bind, pure, Except.pure],
    synthetic_division_is_long_division [1, 2, 3, 4] [1, 1, 1] 3 2 (by simp) (by simp)
      (by simp [polynomial.size]) (by simp [polynomial.degree, size_t_sub])
      (by simp [polynomial.degree, size_t_sub]) (by decide) (by decide) (by simp)⟩

end claims_witnesses


/-! ## The range of the transform -/

section float_range

variable {T : Type} [Field T] [DecidableEq T] [CharZero T]

end float_range


/-! ## The call `a *= a` -/

section self_product

variable {T : Type} [CommRing T]

/-- The scalar step on the receiver's own element keeps the size. -/
theorem mul_assign_scalar_at_length (a : polynomial T) (k : Nat) (hk : k < a.length) :
    ∃ m, polynomial.mul_assign_scalar_at a k = .ok m ∧ m.length = a.length := by
  obtain ⟨m, hm, hlen⟩ := for_loop_inv
    (fun i m_data => do
      let value ← rd m_data k
      let c ← rd m_data i
      wr m_data i (c * value))
    (fun _ m => m.length = a.length) 0 a.length a (Nat.zero_le _) rfl
    (by
      intro i m _ hi hlen
      refine ⟨m.set i (m.getD i 0 * m.getD k 0), ?_, ?_⟩
      · simp only [rd_of_lt m k (by omega), rd_of_lt m i (by omega), bind, Except.bind,
          wr_of_lt m i _ (by omega)]
      · simpa using hlen)
  exact ⟨m, hm, hlen⟩

/-- A round of the aliased loop appends one element: the receiver stays ahead of the
loop index. -/
theorem mul_assign_self_round_length (base m : polynomial T) (i : Nat)
    (hb : 2 ≤ base.length) (hm : m.length = base.length + i - 1) :
    ∃ r, polynomial.mul_assign_self_round base i m = .ok r ∧
      r.length = base.length + (i + 1) - 1 := by
  have hs : size_t_sub m.length i = base.length - 1 := by
    rw [size_t_sub_of_le _ _ (by omega)]
    omega
  obtain ⟨r, hr, hrlen, -⟩ := shift_combine (fun x y : T => x + y) id (by simp)
    (by simp) (polynomial.mul_assign_scalar base (m.getD i 0)) m i (base.length - 1)
    (by omega) (by simp [length_mul_assign_scalar])
    (Or.inr (by omega))
  refine ⟨r, ?_, ?_⟩
  · simp only [polynomial.mul_assign_self_round, rd_of_lt m i (by omega), bind, Except.bind, hs,
      polynomial.size]
    simp only [bind, Except.bind, id] at hr
    exact hr
  · rw [hrlen, hm, length_mul_assign_scalar]
    omega

/-- The aliased loop uses up any fuel. -/
theorem mul_assign_self_loop_none (base : polynomial T) (hb : 2 ≤ base.length) :
    ∀ (fuel i : Nat) (m : polynomial T), m.length = base.length + i - 1 →
      polynomial.mul_assign_self_loop base fuel i m = .ok none := by
  intro fuel
  induction fuel with
  | zero =>
    intro i m hm
    have hlt : i < polynomial.size m := by
      simp only [polynomial.size]
      omega
    rw [polynomial.mul_assign_self_loop, if_pos hlt]
  | succ fuel ih =>
    intro i m hm
    have hlt : i < polynomial.size m := by
      simp only [polynomial.size]
      omega
    obtain ⟨r, hr, hrlen⟩ := mul_assign_self_round_length base m i hb hm
    rw [polynomial.mul_assign_self_loop, if_pos hlt]
    simp only [hr]
    exact ih (i + 1) r hrlen

/-- For a receiver of two or more coefficients the call `a *= a` uses up any fuel. -/
theorem mul_assign_self_none (a : polynomial T) (ha : 2 ≤ a.length) (fuel : Nat) :
    polynomial.mul_assign_self fuel a = .ok none := by
  obtain ⟨m, hm, hlen⟩ := mul_assign_scalar_at_length a 0 (by omega)
  simp only [polynomial.mul_assign_self, rd_of_lt a 0 (by omega), hm, bind, Except.bind]
  exact mul_assign_self_loop_none a ha fuel 1 m (by omega)

/-- C8: in the call `a *= a` with `a = [2, 3]` over the integers the multiplier is the
receiver itself. The scalar step reads `value[0]` again after squaring it and leaves
`[4, 12]`, not `[4, 6]`; the first round leaves `[4, 36, 36]`; every round makes the
receiver, hence `value.size()`, one longer, so whatever the number of rounds allowed the
loop has not ended, and the square `[4, 12, 9]`, which the call with a separate copy of
the multiplier returns, is never returned. -/
theorem mul_assign_self_never_returns :
    polynomial.mul_assign_scalar_at ([2, 3] : polynomial ℤ) 0 = .ok [4, 12] ∧
    polynomial.mul_assign_self_round ([2, 3] : polynomial ℤ) 1 [4, 12] = .ok [4, 36, 36] ∧
    (∀ fuel, polynomial.mul_assign_self fuel ([2, 3] : polynomial ℤ) = .ok none) ∧
    polynomial.mul_assign ([2, 3] : polynomial ℤ) [2, 3] = .ok [4, 12, 9] :=
  ⟨rfl, rfl, fun fuel => mul_assign_self_none [2, 3] (by decide) fuel, rfl⟩

end self_product

end boost.math.tools
